import Mathlib

/-!
Verification of the task-graph planner and execution engine of the
byte-coder agent (TaskPlannerAgent.ts and the AgentOrchestrator).

The TypeScript sources are shallowly embedded: pure functions become Lean
functions over `List`/`String`; JavaScript `Map` objects become
last-write-wins association lookups; the unbounded recursion of the
orchestrator's recovery loop and of the depth-first topological sort is
made total with an explicit fuel parameter whose exhaustion is a
distinguished outcome, kept separate from every error the source can
raise.  External capabilities (the language-model synthesis call, the
code-generation agents and the command executor) are oracles supplied as
function-valued parameters; their result contracts follow the source's
call sites.
-/

/-! ## Character and string helpers (JS string semantics on `List Char`) -/

def isWsC (c : Char) : Bool :=
  c = ' ' || c = '\t' || c = '\n' || c = '\r' || c = '\x0b' || c = '\x0c'

def isDigitC (c : Char) : Bool :=
  '0' ≤ c && c ≤ '9'

def isWordC (c : Char) : Bool :=
  isDigitC c || ('a' ≤ c && c ≤ 'z') || ('A' ≤ c && c ≤ 'Z') || c = '_'

/-- `lstarts hay pat` : does `hay` start with `pat`? -/
def lstarts : List Char → List Char → Bool
  | _, [] => true
  | [], _ :: _ => false
  | a :: as, b :: bs => a == b && lstarts as bs

/-- substring test, models JS `String.prototype.includes`. -/
def lcontains : List Char → List Char → Bool
  | [], p => lstarts [] p
  | h :: t, p => lstarts (h :: t) p || lcontains t p

def sContains (s pat : String) : Bool := lcontains s.data pat.data

def sStarts (s pat : String) : Bool := lstarts s.data pat.data

def sEnds (s pat : String) : Bool := lstarts s.data.reverse pat.data.reverse

def toLowerS (s : String) : String := String.mk (s.data.map Char.toLower)

/-- number of fields of JS `s.split(' ')` = number of spaces + 1. -/
def spaceSplitCount (s : String) : Nat :=
  (s.data.filter (fun c => c == ' ')).length + 1

def dropWs : List Char → List Char
  | [] => []
  | c :: t => if isWsC c then dropWs t else c :: t

def wsRunLen : List Char → Nat
  | [] => 0
  | c :: t => if isWsC c then wsRunLen t + 1 else 0

def takeNonWs : List Char → List Char
  | [] => []
  | c :: t => if isWsC c then [] else c :: takeNonWs t

/-- JS `trim`. -/
def trimL (l : List Char) : List Char :=
  ((l.dropWhile isWsC).reverse.dropWhile isWsC).reverse

/-- split on a single character, models JS `split(c)`. -/
def splitOnCh (c : Char) (l : List Char) : List (List Char) :=
  match l with
  | [] => [[]]
  | x :: t =>
    let rest := splitOnCh c t
    if x = c then [] :: rest
    else match rest with
      | [] => [[x]]
      | r :: rs => (x :: r) :: rs

/-- `\s+\d+` anchored at the head of `l` (one or more whitespace, then a digit). -/
def wsThenDigit (l : List Char) : Bool :=
  match l with
  | [] => false
  | c :: _ =>
    isWsC c &&
      (match dropWs l with
       | d :: _ => isDigitC d
       | [] => false)

/-- `\s+` then one of the literal words `pats`, anchored at the head. -/
def wsThenAnyWord (pats : List (List Char)) (l : List Char) : Bool :=
  match l with
  | [] => false
  | c :: _ =>
    isWsC c && pats.any (fun p => lstarts (dropWs l) p)

/-- scan every suffix of the list with predicate `p` (regex search). -/
def scanAny (p : List Char → Bool) : List Char → Bool
  | [] => p []
  | c :: t => p (c :: t) || scanAny p t

/-- JS regex test `/\b(line|lines)\s+\d+/`.  The match must start at a word
boundary with the literal `line`, optionally followed by `s`, then
whitespace and a digit. -/
def testLineNum (s : String) : Bool :=
  go true s.data
where
  go : Bool → List Char → Bool
    | _, [] => false
    | boundary, c :: t =>
      (boundary && lstarts (c :: t) "line".data &&
        (wsThenDigit ((c :: t).drop 4) ||
          (lstarts ((c :: t).drop 4) "s".data && wsThenDigit ((c :: t).drop 5))))
      || go (!isWordC c) t

/-- JS regex test for `(w₁|w₂|…)\s+\d+` without word boundaries. -/
def testWordsWsDigit (ws : List String) (s : String) : Bool :=
  scanAny (fun l => ws.any (fun w => lstarts l w.data && wsThenDigit (l.drop w.length))) s.data

/-- JS regex test for `(v₁|…)\s+(u₁|…)`. -/
def testWordsWsWords (vs us : List String) (s : String) : Bool :=
  scanAny (fun l => vs.any (fun v =>
    lstarts l v.data && wsThenAnyWord (us.map (·.data)) (l.drop v.length))) s.data

/-- JS regex test `/[\d]+\s*[\+\-\*\/]\s*[\d]+/`. -/
def testMathExpr (s : String) : Bool :=
  scanAny (fun l =>
    match l with
    | [] => false
    | c :: t =>
      isDigitC c &&
        (match dropWs t with
         | o :: r =>
           (o == '+' || o == '-' || o == '*' || o == '/') &&
             (match dropWs r with
              | d :: _ => isDigitC d
              | [] => false)
         | [] => false)) s.data

/-- index of the first occurrence of `a` (length of the list if absent). -/
def idxOf' (a : String) : List String → Nat
  | [] => 0
  | x :: xs => if x = a then 0 else idxOf' a xs + 1

/-! ## The TaskNode data model

`AgentTypes.ts` is not part of the corpus; the shape of `TaskNode` is
modelled from the spec's data model (§3) and from every field access in
`TaskPlannerAgent.ts` and the orchestrator.  Fields the source leaves
`undefined` are `Option`s. -/

structure TaskNode where
  id : String
  description : String
  type : Option String := none
  filePath : Option String := none
  command : Option String := none
  dependencies : List String := []
  validationCommand : Option String := none
  status : String := "pending"
  retryCount : Option Nat := none
  assignedAgent : Option String := none
deriving Repr, DecidableEq

/-- last-write-wins lookup, models `new Map(tasks.map(t => [t.id, t])).get id`. -/
def jsMapGet (tasks : List TaskNode) (id : String) : Option TaskNode :=
  tasks.foldl (fun acc t => if t.id = id then some t else acc) none

/-- the dependency list the sort follows for a node id (empty when the id
has no task in the map). -/
def depsOf (tasks : List TaskNode) (id : String) : List String :=
  match jsMapGet tasks id with
  | some t => t.dependencies
  | none => []

def taskIds (tasks : List TaskNode) : List String := tasks.map (·.id)

/-! ## Topological sort (`topologicalSort`, TaskPlannerAgent.ts 733-762) -/

inductive TopoErr where
  | cycle
  | fuelOut
deriving Repr, DecidableEq

/-- the message of the JS `Error` thrown on a cycle. -/
def TopoErr.message : TopoErr → String
  | .cycle => "Circular dependency detected"
  | .fuelOut => "out of fuel"

structure TopoState where
  result : List String
  visited : List String
  visiting : List String
deriving Repr, DecidableEq

deriving instance DecidableEq for Except

/-- fold a fallible step over a list, stopping at the first error. -/
def exFold (g : α → σ → Except ε σ) : List α → σ → Except ε σ
  | [], st => .ok st
  | a :: l, st =>
    match g a st with
    | .error e => .error e
    | .ok st' => exFold g l st'

/-- the recursive `visit` closure of `topologicalSort`.  Fuel decreases by
one per nesting level; siblings share fuel, so the fuel needed is the
recursion depth, bounded by the number of distinct ids. -/
def topoVisit (tasks : List TaskNode) : Nat → String → TopoState → Except TopoErr TopoState
  | 0, _, _ => .error .fuelOut
  | f + 1, id, st =>
    if id ∈ st.visited then .ok st
    else if id ∈ st.visiting then .error .cycle
    else
      match exFold (fun d s => topoVisit tasks f d s) (depsOf tasks id)
          { st with visiting := id :: st.visiting } with
      | .error e => .error e
      | .ok st2 =>
        .ok { result := st2.result ++ [id]
              visited := id :: st2.visited
              visiting := st2.visiting.erase id }

/-- every id the traversal can reach: the task ids and every dependency id. -/
def topoUniv (tasks : List TaskNode) : List String :=
  taskIds tasks ++ tasks.flatMap (·.dependencies)

def topoFuel (tasks : List TaskNode) : Nat :=
  (topoUniv tasks).length + 1

/-- `topologicalSort` (TaskPlannerAgent.ts 733-762): DFS from every task id
in insertion order. -/
def topologicalSort (tasks : List TaskNode) : Except TopoErr (List String) :=
  match exFold (fun (t : TaskNode) st => topoVisit tasks (topoFuel tasks) t.id st) tasks
      ⟨[], [], []⟩ with
  | .error e => .error e
  | .ok st => .ok st.result

example :
    topologicalSort
      [⟨"B", "b", none, none, none, ["A"], none, "pending", none, none⟩,
       ⟨"A", "a", none, none, none, [], none, "pending", none, none⟩] =
      .ok ["A", "B"] := by decide

example :
    topologicalSort
      [⟨"A", "a", none, none, none, ["B"], none, "pending", none, none⟩,
       ⟨"B", "b", none, none, none, ["A"], none, "pending", none, none⟩] =
      .error .cycle := by decide

example :
    topologicalSort
      [⟨"A", "a", none, none, none, ["ghost"], none, "pending", none, none⟩] =
      .ok ["ghost", "A"] := by decide

/-! ## The planner input model and task-type detection
(`detectTaskType`, TaskPlannerAgent.ts 70-141) -/

structure ApiEndpoint where
  method : String
  path : String
  description : String
deriving Repr, DecidableEq

structure TaskPlannerInput where
  query : String
  projectType : String
  fileStructure : List String
  interfaces : List String
  apiEndpoints : Option (List ApiEndpoint) := none
  activeFilePath : Option String := none
deriving Repr, DecidableEq

inductive TaskKind where
  | script_execution
  | scaffold
  | stress_test
  | command_sequence
  | simple_modification
  | complex_modification
  | generic
deriving Repr, DecidableEq

def complexKeywords : List String :=
  ["refactor", "rewrite", "optimize", "structure", "architecture", "pattern", "implement feature"]

def multiStepKeywords : List String := [" and ", " then ", " also ", ",", ";"]

def sequenceKeywords : List String :=
  ["then", "after", "and", "clone", "commit", "push", "pull", "install", "curl", "wget", "git"]

def commonBinaries : List String :=
  ["ls", "pwd", "cp", "mv", "rm", "mkdir", "cat", "echo", "touch", "grep", "find", "sed",
   "awk", "tar", "zip", "unzip", "ps", "kill", "top", "htop", "df", "du", "npx", "npm",
   "yarn", "pnpm", "node", "python", "pip"]

def executionVerbs : List String :=
  ["run", "execute", "calculate", "compute", "evaluate", "start", "launch", "test"]

def codeIndicators : List String :=
  ["script", "code", "function", "snippet", "file", "program", "python", "js", "ts", "node",
   "bash", "shell", "ruby", "go", "rust"]

def detectTaskType (input : TaskPlannerInput) : TaskKind :=
  let query := toLowerS input.query
  if input.projectType = "script" then .script_execution
  else if sContains query "max time" || sContains query "stress test" ||
      sContains query "load test" || sContains query "run for" then .stress_test
  else
    let isComplex := complexKeywords.any (fun k => sContains query k)
    let isMultiStep : Bool :=
      decide ((multiStepKeywords.filter (fun k => sContains query k)).length ≥ 1)
    if isComplex || (isMultiStep && decide (query.length > 30)) then .complex_modification
    else
      let hasLineNumbers := testLineNum query
      let hasImplicitLineAction := testWordsWsDigit ["remove", "delete", "edit", "change"] query
      let hasSimpleAction := testWordsWsWords
        ["create", "make", "remove", "delete", "edit", "change", "update"] ["file", "line"] query
      let isShort : Bool := decide (spaceSplitCount query < 30)
      if isShort && (hasLineNumbers || hasImplicitLineAction || hasSimpleAction) &&
          !sContains query "project" && !sContains query "app" then .simple_modification
      else
        let hasSequence := sequenceKeywords.any (fun k => sContains query (" " ++ k ++ " ")) ||
          sContains query " && " || sContains query ";"
        let isGitOperation := sStarts query "git" || sContains query "clone repo" ||
          sContains query "commit code"
        let isShellCommand := commonBinaries.any (fun bin => sStarts query (bin ++ " ") || query = bin)
        if hasSequence || isGitOperation || isShellCommand then .command_sequence
        else
          let hasExecutionVerb := executionVerbs.any (fun v => sContains query v)
          let hasCodeIndicator := codeIndicators.any (fun i => sContains query i)
          let hasMathExpression := testMathExpr query
          if hasExecutionVerb || (hasCodeIndicator && decide (query.length < 50)) ||
              hasMathExpression then .script_execution
          else if input.fileStructure.length > 2 then .scaffold
          else .generic

/-! ## Template generators (TaskPlannerAgent.ts 146-209, 362-586, 714-728)

Each generator threads the instance field `taskIdCounter` explicitly. -/

def pad3 (n : Nat) : String :=
  let s := toString n
  if s.length ≥ 3 then s
  else if s.length = 2 then "0" ++ s
  else "00" ++ s

/-- `createTask` (TaskPlannerAgent.ts 714-728). -/
def createTask (description : String) (filePath : Option String)
    (dependencies : List String) (validationCommand : Option String)
    (c : Nat) : TaskNode × Nat :=
  (⟨"task_" ++ pad3 c, description, none, filePath, none, dependencies,
     validationCommand, "pending", none, none⟩, c + 1)

def generateStressTestTasks (_input : TaskPlannerInput) (c : Nat) : List TaskNode × Nat :=
  let (t0, c) := createTask "Prepare Stress Test Environment" (some "stress_test_config.json")
    [] none c
  let scriptName := "stress_test_runner.ts"
  let (t1, c) := createTask "Implement Stress Test Logic (Loop/Timer)" (some scriptName)
    [t0.id] (some ("npx ts-node --check " ++ scriptName)) c
  let (t2, c) := createTask "Run Stress Test (High Duration)" none [t1.id]
    (some ("npx ts-node " ++ scriptName)) c
  let (t3, c) := createTask "Analyze Test Results & Logs" (some "test_report.md") [t2.id] none c
  ([t0, t1, t2, t3], c)

/-- the last whitespace-separated word containing a dot and longer than two
characters overrides the active file path. -/
def lastDotWord (ws : List String) (dflt : Option String) : Option String :=
  ws.foldl (fun acc w => if sContains w "." && decide (w.length > 2) then some w else acc) dflt

def generateSimpleModificationTasks (input : TaskPlannerInput) (c : Nat) : List TaskNode × Nat :=
  let words := (splitOnCh ' ' input.query.data).map (fun l => String.mk l)
  let filePath := lastDotWord words input.activeFilePath
  let (t0, c) := createTask input.query filePath [] none c
  ([t0], c)

def generateGenericTasks (input : TaskPlannerInput) (c : Nat) : List TaskNode × Nat :=
  let query := toLowerS input.query
  let (t0, c) := createTask "Analyze Context & Requirements" none [] none c
  let (t1, c) := createTask "Plan Implementation Details" none [t0.id] none c
  let execDesc :=
    if sContains query "fix" then "Apply Fixes"
    else if sContains query "refactor" then "Perform Refactoring"
    else if sContains query "test" then "Implement Tests"
    else "Execute Changes"
  let (t2, c) := createTask execDesc none [t1.id] none c
  let (t3, c) := createTask "Verify & Validate" none [t2.id] (some "npm test") c
  ([t0, t1, t2, t3], c)

/-! ### Script tasks (`generateScriptTasks`, TaskPlannerAgent.ts 464-538) -/

structure LangConfig where
  ext : String
  cmd : String
  name : String
deriving Repr, DecidableEq

def languageMap : List (String × LangConfig) :=
  [("python", ⟨"py", "python3", "python"⟩),
   ("javascript", ⟨"js", "node", "javascript"⟩),
   ("js", ⟨"js", "node", "javascript"⟩),
   ("typescript", ⟨"ts", "npx ts-node", "typescript"⟩),
   ("ts", ⟨"ts", "npx ts-node", "typescript"⟩),
   ("bash", ⟨"sh", "bash", "bash"⟩),
   ("shell", ⟨"sh", "bash", "bash"⟩),
   ("sh", ⟨"sh", "bash", "bash"⟩),
   ("go", ⟨"go", "go run", "go"⟩),
   ("golang", ⟨"go", "go run", "go"⟩),
   ("rust", ⟨"rs", "cargo run", "rust"⟩),
   ("ruby", ⟨"rb", "ruby", "ruby"⟩),
   ("php", ⟨"php", "php", "php"⟩),
   ("java", ⟨"java", "java", "java"⟩)]

/-- JS `s.slice(0, n)`. -/
def sliceStr (s : String) (n : Nat) : String := String.mk (s.data.take n)

def generateScriptTasks (input : TaskPlannerInput) (c : Nat) : List TaskNode × Nat :=
  let query := toLowerS input.query
  let lang0 :=
    match languageMap.find? (fun kv => sContains query kv.1) with
    | some kv => kv.2
    | none => ⟨"py", "python3", "python"⟩
  let lang1 :=
    match input.fileStructure with
    | [] => lang0
    | f0 :: _ =>
      let existingExt := String.mk ((splitOnCh '.' f0.data).getLastD [])
      if existingExt ≠ "" then
        match (languageMap.map (fun kv : String × LangConfig => kv.2)).find?
            (fun cfg : LangConfig => cfg.ext = existingExt) with
        | some cfg => cfg
        | none => lang0
      else lang0
  let fileName :=
    (input.fileStructure.find? (fun f => sEnds f ("." ++ lang1.ext))).getD
      ("script." ++ lang1.ext)
  let isRunOnly := sStarts query "run " && input.fileStructure.contains fileName
  let (tasks, c) :=
    if isRunOnly then (([] : List TaskNode), c)
    else
      let (t0, c) := createTask
        ("Create " ++ lang1.name ++ " script to solve: " ++ sliceStr input.query 50 ++ "...")
        (some fileName) [] none c
      ([t0], c)
  let deps := match tasks with | [] => [] | t0 :: _ => [t0.id]
  let (t1, c) := createTask ("Run " ++ fileName ++ " and report result") none deps
    (some (lang1.cmd ++ " " ++ fileName)) c
  (tasks ++ [t1], c)

/-! ### Command-sequence tasks (`generateCommandSequenceTasks`,
TaskPlannerAgent.ts 362-459) -/

def lstartsCI (hay pat : List Char) : Bool :=
  lstarts (hay.map Char.toLower) pat

/-- `\s+word\s+` (case-insensitive word) anchored at the head; returns the
matched length. -/
def wsWordWs (l : List Char) (w : List Char) : Option Nat :=
  let k := wsRunLen l
  if k = 0 then none
  else
    let rest := l.drop k
    if lstartsCI rest w then
      let m := wsRunLen (rest.drop w.length)
      if m = 0 then none else some (k + w.length + m)
    else none

/-- `c\s*` anchored at the head; returns the matched length. -/
def chWs (l : List Char) (c : Char) : Option Nat :=
  match l with
  | x :: t => if x = c then some (1 + wsRunLen t) else none
  | [] => none

/-- one alternative of the step separator `/(?:\s+then\s+|\s+and\s+|,\s*|;\s*)/i`
matched at the head. -/
def sepAt (l : List Char) : Option Nat :=
  (wsWordWs l "then".data).orElse fun _ =>
  (wsWordWs l "and".data).orElse fun _ =>
  (chWs l ',').orElse fun _ =>
  chWs l ';'

/-- JS `String.split` on the step-separator regex. -/
def splitSepsGo : List Char → List Char → List (List Char)
  | [], cur => [cur.reverse]
  | c :: t, cur =>
    match sepAt (c :: t) with
    | some k => cur.reverse :: splitSepsGo (t.drop (k - 1)) []
    | none => splitSepsGo t (c :: cur)
termination_by l _ => l.length
decreasing_by
  all_goals (simp_wf <;> omega)

def findUrlGo (pres : List String) : List Char → Option String
  | [] => none
  | c :: t =>
    match pres.find? (fun p => lstarts (c :: t) p.data) with
    | some p =>
      let rest := takeNonWs ((c :: t).drop p.length)
      if rest = [] then findUrlGo pres t
      else some (String.mk (p.data ++ rest))
    | none => findUrlGo pres t

/-- the scheme prefixes generated by `(?:https?|git|ssh):\/\/`. -/
def urlSchemes : List String := ["http://", "https://", "git://", "ssh://"]

def takeNonQuote : List Char → List Char
  | [] => []
  | c :: t => if c = '"' || c = '\x27' then [] else c :: takeNonQuote t

/-- JS regex `/['"]([^'"]+)['"]/`: first quoted run of non-quote characters. -/
def findQuoted : List Char → Option String
  | [] => none
  | c :: t =>
    if c = '"' || c = '\x27' then
      let run := takeNonQuote t
      if run = [] then findQuoted t
      else
        match t.drop run.length with
        | q :: _ => if q = '"' || q = '\x27' then some (String.mk run) else findQuoted t
        | [] => findQuoted t
    else findQuoted t

/-- JS `String.replace` with a literal pattern: first occurrence removed. -/
def replaceFirstL : List Char → List Char → List Char
  | [], _ => []
  | c :: t, pat =>
    if lstarts (c :: t) pat then (c :: t).drop pat.length
    else c :: replaceFirstL t pat

/-- JS `stepDesc.replace(/^(run|exec)\s+/, '')` (case-sensitive, anchored). -/
def stripRunExec (s : String) : String :=
  if lstarts s.data "run".data then
    let m := wsRunLen (s.data.drop 3)
    if m = 0 then s else String.mk (s.data.drop (3 + m))
  else if lstarts s.data "exec".data then
    let m := wsRunLen (s.data.drop 4)
    if m = 0 then s else String.mk (s.data.drop (4 + m))
  else s

structure StepCmd where
  command : Option String
  validationCommand : Option String
deriving Repr, DecidableEq

/-- command inference for one step of a command sequence
(TaskPlannerAgent.ts 374-438). -/
def inferStep (stepDesc : String) : StepCmd :=
  let lowerDesc := toLowerS stepDesc
  if sContains lowerDesc "clone" then
    match findUrlGo urlSchemes stepDesc.data with
    | some url =>
      let repoName := replaceFirstL ((splitOnCh '/' url.data).getLastD []) ".git".data
      ⟨some ("git clone " ++ url),
        if repoName = [] then none else some ("test -d " ++ String.mk repoName)⟩
    | none => ⟨some "git clone <repo_url>", none⟩
  else if sContains lowerDesc "install" then
    if sContains lowerDesc "npm" then ⟨some "npm install", some "npm list --depth=0"⟩
    else if sContains lowerDesc "pip" then
      ⟨some "pip install -r requirements.txt", some "pip list"⟩
    else if sContains lowerDesc "yarn" then ⟨some "yarn install", some "yarn list --depth=0"⟩
    else ⟨some "npm install", some "npm list --depth=0"⟩
  else if sContains lowerDesc "commit" then
    let msg := (findQuoted stepDesc.data).getD "update"
    ⟨some ("git add . && git commit -m \"" ++ msg ++ "\""), some "git log -1 --oneline"⟩
  else if sContains lowerDesc "push" then ⟨some "git push", some "git status"⟩
  else if sContains lowerDesc "test api" || sContains lowerDesc "check url" ||
      sContains lowerDesc "curl" then
    match findUrlGo ["http://", "https://"] stepDesc.data with
    | some url => ⟨some ("curl -I " ++ url), none⟩
    | none => ⟨some "curl <url>", none⟩
  else if sStarts lowerDesc "run " || sStarts lowerDesc "exec " then
    ⟨some (stripRunExec stepDesc), none⟩
  else ⟨some stepDesc, none⟩

def cmdSeqGo : List String → Option String → Nat → List TaskNode × Nat
  | [], _, c => ([], c)
  | stepDesc :: rest, prev, c =>
    let sc := inferStep stepDesc
    let taskId := "task_" ++ toString c
    let deps := match prev with | some p => [p] | none => []
    let task : TaskNode := ⟨taskId, stepDesc, some "command", none, sc.command, deps,
      sc.validationCommand, "pending", some 0, none⟩
    let (ts, c') := cmdSeqGo rest (some taskId) (c + 1)
    (task :: ts, c')

def generateCommandSequenceTasks (input : TaskPlannerInput) (c : Nat) : List TaskNode × Nat :=
  let steps := (((splitSepsGo input.query.data []).map trimL).filter (· ≠ [])).map
    (fun l => String.mk l)
  cmdSeqGo steps none c

/-! ### Scaffold tasks (`generateScaffoldTasks`, TaskPlannerAgent.ts 591-709) -/

def resourceOf (ep : ApiEndpoint) : String :=
  match (splitOnCh '/' ep.path.data).get? 2 with
  | some s => if s = [] then "root" else String.mk s
  | none => "root"

/-- JS `Map` grouping: first insertion fixes the position, later endpoints
append to the entry. -/
def insertGroup (acc : List (String × List ApiEndpoint)) (r : String) (ep : ApiEndpoint) :
    List (String × List ApiEndpoint) :=
  match acc with
  | [] => [(r, [ep])]
  | (k, v) :: rest =>
    if k = r then (k, v ++ [ep]) :: rest else (k, v) :: insertGroup rest r ep

def groupResources (eps : List ApiEndpoint) : List (String × List ApiEndpoint) :=
  eps.foldl (fun acc ep => insertGroup acc (resourceOf ep) ep) []

def scaffoldApiGo : List (String × List ApiEndpoint) → String → Nat → List TaskNode × Nat
  | [], _, c => ([], c)
  | (resource, endpoints) :: rest, prevId, c =>
    let (t, c) := createTask
      ("Implement " ++ resource ++ " routes (" ++ toString endpoints.length ++ " endpoints)")
      (some ("src/routes/" ++ resource ++ ".routes.ts")) [prevId]
      (some ("curl http://localhost:3000/api/" ++ resource)) c
    let (ts, c') := scaffoldApiGo rest t.id c
    (t :: ts, c')

def scaffoldCompGo : List String → String → Nat → List TaskNode × Nat
  | [], _, c => ([], c)
  | f :: rest, prevId, c =>
    let componentName := replaceFirstL ((splitOnCh '/' f.data).getLastD []) ".tsx".data
    let (t, c) := createTask ("Implement " ++ String.mk componentName ++ " component")
      (some f) [prevId] none c
    let (ts, c') := scaffoldCompGo rest t.id c
    (t :: ts, c')

def generateScaffoldTasks (input : TaskPlannerInput) (c : Nat) : List TaskNode × Nat :=
  let (t0, c) := createTask "Initialize project with package.json" none [] (some "npm init -y") c
  let (t1, c) := createTask "Install dependencies" none [t0.id] (some "npm install") c
  let (t2, c) := createTask "Configure TypeScript" (some "tsconfig.json") [t0.id]
    (some "npx tsc --init") c
  let tasks := [t0, t1, t2]
  let folders := input.fileStructure.filter (fun f => sEnds f "/")
  let (tasks, c) :=
    if folders.length > 0 then
      let (t, c) := createTask "Create directory structure" none [t0.id]
        (some ("mkdir -p " ++ String.intercalate " " folders)) c
      (tasks ++ [t], c)
    else (tasks, c)
  let (tasks, c) :=
    if input.interfaces.length > 0 then
      let (t, c) := createTask "Create type definitions" (some "src/types/index.ts") [t2.id]
        (some "npm run typecheck") c
      (tasks ++ [t], c)
    else (tasks, c)
  let (tasks, c) :=
    match input.apiEndpoints with
    | some eps =>
      if eps.length > 0 then
        let setupId := (tasks.getLast?.map (fun t : TaskNode => t.id)).getD ""
        let (tr, c) := createTask "Create API router setup" (some "src/routes/index.ts")
          [setupId] none c
        let tasks := tasks ++ [tr]
        let (rts, c) := scaffoldApiGo (groupResources eps) tr.id c
        (tasks ++ rts, c)
      else (tasks, c)
    | none => (tasks, c)
  let componentFiles := input.fileStructure.filter
    (fun f => sContains f "/components/" && sEnds f ".tsx")
  let (tasks, c) :=
    if componentFiles.length > 0 then
      let typesTaskId :=
        ((tasks.find? (fun t : TaskNode => sContains t.description "type definitions")).map
          (fun t : TaskNode => t.id)).getD t0.id
      let (tb, c) := createTask "Create base UI components" (some "src/components/ui/index.ts")
        [typesTaskId] none c
      let tasks := tasks ++ [tb]
      let (cts, c) := scaffoldCompGo (componentFiles.take 5) tb.id c
      (tasks ++ cts, c)
    else (tasks, c)
  let (t4, c) := createTask "Setup testing framework" none [t1.id]
    (some "npm install -D jest ts-jest @types/jest") c
  let tasks := tasks ++ [t4]
  let (t5, c) := createTask "Write initial tests" (some "tests/index.test.ts") [t4.id]
    (some "npm run test") c
  (tasks ++ [t5], c)

/-! ### Synthesis parsing (`parseTaskResponse`, TaskPlannerAgent.ts 336-357)

The bracket-extraction regex and `JSON.parse` are the tolerant-parse
boundary of spec section 6; the synthesis oracle delivers either a parsed
array of raw task objects or `none` (no array found, or the parse threw).
This module performs the source's `tasks.map(...)` over that array. -/

structure RawTask where
  id : Option String := none
  description : String := ""
  type : Option String := none
  dependencies : Option (List String) := none
  command : Option String := none
deriving Repr, DecidableEq

/-- JS `t.type || 'code'` (missing or empty string falls back). -/
def rawTaskType (t : RawTask) : String :=
  match t.type with
  | some ty => if ty = "" then "code" else ty
  | none => "code"

/-- JS `t.id || `task_${this.taskIdCounter++}`` : the counter advances only
when the raw id is missing or empty. -/
def rawTaskId (t : RawTask) (c : Nat) : String × Nat :=
  match t.id with
  | some s => if s = "" then ("task_" ++ toString c, c + 1) else (s, c)
  | none => ("task_" ++ toString c, c + 1)

def parseTasksFromRaw : Nat → List RawTask → List TaskNode × Nat
  | c, [] => ([], c)
  | c, t :: rest =>
    let (tid, c) := rawTaskId t c
    let node : TaskNode := ⟨tid, t.description, some (rawTaskType t), none, t.command,
      t.dependencies.getD [], none, "pending", some 0, none⟩
    let (ns, c') := parseTasksFromRaw c rest
    (node :: ns, c')

def parseTaskResponse (c : Nat) (parsed : Option (List RawTask)) : List TaskNode × Nat :=
  match parsed with
  | some raw => parseTasksFromRaw c raw
  | none => ([], c)

/-! ### LLM-backed generators (TaskPlannerAgent.ts 239-334) -/

/-- the graph-synthesis capability: prompt in, best-effort-parsed task
array out (`none` models both an unparseable response and a thrown call). -/
def SynthOracle := String → Option (List RawTask)

def constructDynamicPlanningPrompt (input : TaskPlannerInput) : String :=
  "You are a Senior Technical Project Manager.\n" ++
  "User Request: \"" ++ input.query ++ "\"\n" ++
  "Project Type: " ++ input.projectType ++ "\n" ++
  "Existing Files: " ++ String.intercalate ", " (input.fileStructure.take 20) ++ "\n" ++
  "\n" ++
  "Break this request down into a logical series of dependent tasks.\n" ++
  "Output a JSON array of task objects.\n" ++
  "Format:\n" ++
  "[\n" ++
  "  \x7b\n" ++
  "    \"id\": \"task_1\",\n" ++
  "    \"description\": \"Clear, actionable task description (e.g. \x27Create src/utils.ts with helper functions\x27)\",\n" ++
  "    \"type\": \"code\" | \"command\",\n" ++
  "    \"dependencies\": [],\n" ++
  "    \"command\": \"optional shell command if type is command\"\n" ++
  "  \x7d\n" ++
  "]\n" ++
  "Rules:\n" ++
  "1. Keep it efficient (3-6 tasks max for typical requests).\n" ++
  "2. Ensure dependencies are logical (create file before editing it).\n" ++
  "3. Use specific filenames where possible.\n" ++
  "4. Output ONLY JSON.\n"

def complexPlanningPrompt (input : TaskPlannerInput) : String :=
  "\n" ++
  "You are a Senior Software Architect.\n" ++
  "User Request: \"" ++ input.query ++ "\"\n" ++
  "Project Type: " ++ input.projectType ++ "\n" ++
  "Existing Files: " ++ String.intercalate ", " (input.fileStructure.take 30) ++ "\n" ++
  "\n" ++
  "The user wants to perform a complex modification. \n" ++
  "Break this down into a series of granular, atomic modification steps.\n" ++
  "Each step should target a specific file or component.\n" ++
  "Ensure the order is logical (e.g., update interface -> implement class -> update tests).\n" ++
  "\n" ++
  "Output a JSON array of task objects.\n" ++
  "Format:\n" ++
  "[\n" ++
  "  \x7b\n" ++
  "    \"id\": \"task_1\",\n" ++
  "    \"description\": \"Specific task description (e.g. \x27Add \x27factorial\x27 method to Calculator class\x27)\",\n" ++
  "    \"type\": \"code\",\n" ++
  "    \"dependencies\": [],\n" ++
  "    \"filePath\": \"Target file path if known\"\n" ++
  "  \x7d\n" ++
  "]\n" ++
  "Rules:\n" ++
  "1. Break down large changes into smaller, testable steps.\n" ++
  "2. If multiple files need changes, create separate tasks for each.\n" ++
  "3. Include verification/test updates as the last step.\n" ++
  "4. Output ONLY JSON.\n"

/-- `generateDynamicTasks`: parse the synthesis response; an empty or
unparseable result falls back to the generic template. -/
def generateDynamicTasks (llm : SynthOracle) (input : TaskPlannerInput) (c : Nat) :
    List TaskNode × Nat :=
  let (tasks, c') := parseTaskResponse c (llm (constructDynamicPlanningPrompt input))
  if tasks.length > 0 then (tasks, c')
  else generateGenericTasks input c'

def generateComplexModificationTasks (llm : SynthOracle) (input : TaskPlannerInput) (c : Nat) :
    List TaskNode × Nat :=
  let (tasks, c') := parseTaskResponse c (llm (complexPlanningPrompt input))
  if tasks.length > 0 then (tasks, c')
  else generateGenericTasks input c'

/-- `generateTaskGraph` (TaskPlannerAgent.ts 214-234). -/
def generateTaskGraph (llm : SynthOracle) (input : TaskPlannerInput) (c : Nat) :
    List TaskNode × Nat :=
  match detectTaskType input with
  | .stress_test => generateStressTestTasks input c
  | .simple_modification => generateSimpleModificationTasks input c
  | .complex_modification => generateComplexModificationTasks llm input c
  | .command_sequence => generateCommandSequenceTasks input c
  | .script_execution => generateScriptTasks input c
  | .scaffold => generateScaffoldTasks input c
  | .generic => generateDynamicTasks llm input c

/-! ### Validation commands (`generateValidationCommands`,
TaskPlannerAgent.ts 767-794) -/

/-- JS truthiness of an optional string. -/
def optTruthy : Option String → Bool
  | some s => s ≠ ""
  | none => false

def generateValidationCommands (tasks : List TaskNode) (projectType : String) :
    List (String × String) :=
  let perTask := tasks.flatMap (fun task =>
    if optTruthy task.validationCommand then [(task.id, task.validationCommand.getD "")]
    else if optTruthy task.filePath then
      (let fp := task.filePath.getD ""
       if sEnds fp ".ts" || sEnds fp ".tsx" then [(task.id, "npm run typecheck")] else [])
    else [])
  perTask ++ [("final", "npm run build")] ++
    (if projectType = "api" then [("final", "npm run test")]
     else if projectType = "web" || projectType = "fullstack" then
       [("final", "npm run lint && npm run build")]
     else [])

/-! ### Critical path (`identifyCriticalPath`, TaskPlannerAgent.ts 799-842) -/

def dedupFirstGo : List String → List String → List String
  | [], _ => []
  | x :: xs, seen => if x ∈ seen then dedupFirstGo xs seen else x :: dedupFirstGo xs (x :: seen)

/-- insertion-order key list of the JS `Map` (first occurrence wins). -/
def dedupFirst (l : List String) : List String := dedupFirstGo l []

def updF (f : String → Nat) (k : String) (v : Nat) : String → Nat :=
  fun x => if x = k then v else f x

def updP (f : String → Option String) (k : String) (v : String) : String → Option String :=
  fun x => if x = k then some v else f x

/-- the inner relaxation loop over one task's dependencies. -/
def cpRelax (id : String) (deps : List String)
    (dp : (String → Nat) × (String → Option String)) :
    (String → Nat) × (String → Option String) :=
  deps.foldl (fun dp depId =>
    let newDist := dp.1 depId + 1
    if newDist > dp.1 id then (updF dp.1 id newDist, updP dp.2 id depId) else dp) dp

/-- the distance/predecessor dynamic program; `distances.get(x) || 0` is the
total function with default 0. -/
def cpDP (tasks : List TaskNode) (order : List String) :
    (String → Nat) × (String → Option String) :=
  order.foldl (fun dp id =>
    match jsMapGet tasks id with
    | none => dp
    | some task => cpRelax id task.dependencies dp)
    (fun _ => 0, fun _ => none)

/-- the maximum-distance scan over the map in insertion order. -/
def cpMax (dist : String → Nat) (keys : List String) (dflt : String) : Nat × String :=
  keys.foldl (fun acc id => if dist id > acc.1 then (dist id, id) else acc) (0, dflt)

/-- the predecessor walk (`while (predecessors.has(current))`), fuelled. -/
def cpBuild (pred : String → Option String) : Nat → String → List String → List String
  | 0, cur, acc => cur :: acc
  | f + 1, cur, acc =>
    match pred cur with
    | none => cur :: acc
    | some p => cpBuild pred f p (cur :: acc)

def identifyCriticalPath (tasks : List TaskNode) (order : List String) : List String :=
  let dp := cpDP tasks order
  let m := cpMax dp.1 (dedupFirst order) (order.headD "")
  cpBuild dp.2 order.length m.2 []

/-! ### The planner's `execute` (TaskPlannerAgent.ts 34-65) -/

structure TaskPlannerResult where
  taskGraph : List TaskNode
  executionOrder : List String
  validationCommands : List (String × String)
  criticalPath : List String
deriving Repr, DecidableEq

structure PlannerOutput where
  status : String
  payload : Option TaskPlannerResult
  errorMsg : Option String
deriving Repr, DecidableEq

/-- `TaskPlannerAgent.execute`: resets the instance id counter to 0,
generates the graph, sorts it (a thrown cycle error is caught by the
base-class `handleError`, modelled as a non-success status carrying the
message), and derives validation commands and the critical path. -/
def plannerExecute (llm : SynthOracle) (input : TaskPlannerInput) : PlannerOutput :=
  let (taskGraph, _) := generateTaskGraph llm input 0
  match topologicalSort taskGraph with
  | .error e => ⟨"error", none, some e.message⟩
  | .ok executionOrder =>
    ⟨"success",
      some ⟨taskGraph, executionOrder,
        generateValidationCommands taskGraph input.projectType,
        identifyCriticalPath taskGraph executionOrder⟩,
      none⟩

/-! ## The Execution Supervisor (`AgentOrchestrator`, part_005)

`executeSingleTask` dispatches to the code-generation or command-execution
capabilities and then runs the validation command; both capabilities are
external and appear as oracles in `OrchEnv`.  A rejected promise of a
capability call is an `Except.error` carrying the JS error message. -/

structure ExecPayload where
  exitCode : Int
  stdout : String
  stderr : String
deriving Repr, DecidableEq

/-- the executor agent's `AgentOutput`: a status string and a payload with
exit code and streams (shape from the orchestrator's accesses and spec
section 6). -/
structure AgentResult where
  status : String
  payload : Option ExecPayload
deriving Repr, DecidableEq

structure OrchEnv where
  codeGen : TaskNode → String → Except String Unit
  executorRun : String → Except String AgentResult
  llm : SynthOracle

/-- the dispatch part of `executeSingleTask` (part_005 131-188). -/
def primaryAction (env : OrchEnv) (task : TaskNode) (contextQuery : String) :
    Except String Unit :=
  let agentName :=
    match task.assignedAgent with
    | some s => if s = "" then "Executor" else s
    | none => "Executor"
  if agentName = "CodeGenerator" then env.codeGen task contextQuery
  else if agentName = "Executor" then
    let commandToRun :=
      if optTruthy task.command then task.command
      else if task.type = some "command" then some task.description
      else none
    if optTruthy commandToRun then
      match env.executorRun (commandToRun.getD "") with
      | .error e => .error e
      | .ok _ => .ok ()
    else if optTruthy task.validationCommand then
      match env.executorRun (task.validationCommand.getD "") with
      | .error e => .error e
      | .ok _ => .ok ()
    else .ok ()
  else if agentName = "CodeModifier" then env.codeGen task contextQuery
  else .ok ()

def validationFails (vr : AgentResult) : Bool :=
  vr.status == "failed" ||
    (match vr.payload with
     | some p => decide (p.exitCode ≠ 0)
     | none => false)

def validationMsg (task : TaskNode) (vr : AgentResult) : String :=
  "Validation failed for task " ++ task.id ++ ": " ++
    (match vr.payload with
     | some p => if p.stderr = "" then "Unknown error" else p.stderr
     | none => "Unknown error")

/-- the VERIFY part of `executeSingleTask` (part_005 190-201). -/
def runValidation (env : OrchEnv) (task : TaskNode) : Except String Unit :=
  if optTruthy task.validationCommand then
    match env.executorRun (task.validationCommand.getD "") with
    | .error e => .error e
    | .ok vr => if validationFails vr then .error (validationMsg task vr) else .ok ()
  else .ok ()

def executeSingleTask (env : OrchEnv) (task : TaskNode) (contextQuery : String) :
    Except String Unit :=
  match primaryAction env task contextQuery with
  | .error e => .error e
  | .ok _ => runValidation env task

inductive RunErr where
  | err (msg : String)
  | fuelOut
deriving Repr, DecidableEq

/-- outcome of a supervisor run, instrumented with the sequence of task
ids dispatched and the recovery queries sent to the planner. -/
structure RunOut where
  result : Except RunErr Unit
  dispatched : List String
  recoveries : List String
deriving Repr, DecidableEq

/-- the recovery query built by `attemptRecovery` (part_005 205). -/
def mkRecoveryQuery (failedTask : TaskNode) (errMsg : String) (contextQuery : String) : String :=
  "Task \x27" ++ failedTask.description ++ "\x27 failed with error: " ++ errMsg ++
    ". Fix it. Context: " ++ contextQuery

/-- the planner input built by `attemptRecovery` (part_005 208-214). -/
def recoveryInput (failedTask : TaskNode) (recoveryQuery : String) : TaskPlannerInput :=
  ⟨recoveryQuery, "recovery", [], [], none, failedTask.filePath⟩

def pendingDeps (task : TaskNode) (completed : List String) (allTasks : List TaskNode) :
    List String :=
  task.dependencies.filter (fun d => !completed.contains d && (jsMapGet allTasks d).isSome)

def depUnmetMsg (task : TaskNode) (pending : List String) : String :=
  "Task " ++ task.id ++ " (" ++ task.description ++ ") cannot start because dependencies " ++
    String.intercalate ", " pending ++ " are not complete."

def taskFailedMsg (task : TaskNode) (errMsg : String) : String :=
  "Task " ++ task.id ++ " failed and recovery was unsuccessful: " ++ errMsg

/-- `executeTaskGraph` with `attemptRecovery` inlined (part_005 103-129 and
204-226).  The source's recursion is unbounded (the loop over the task
list plus a recursive sub-run per recovery); here one unit of fuel is
consumed per task step and per recovery entry, and exhaustion is the
distinguished `fuelOut` outcome, never a source error. -/
def execLoop (env : OrchEnv) :
    Nat → List TaskNode → List TaskNode → String → List String → RunOut
  | _, _, [], _, _ => ⟨.ok (), [], []⟩
  | 0, _, _ :: _, _, _ => ⟨.error .fuelOut, [], []⟩
  | f + 1, allTasks, task :: rest, originalQuery, completed =>
    let pd := pendingDeps task completed allTasks
    if pd ≠ [] then ⟨.error (.err (depUnmetMsg task pd)), [], []⟩
    else
      match executeSingleTask env task originalQuery with
      | .ok _ =>
        let out := execLoop env f allTasks rest originalQuery (task.id :: completed)
        ⟨out.result, task.id :: out.dispatched, out.recoveries⟩
      | .error e =>
        let rq := mkRecoveryQuery task e originalQuery
        let plan := plannerExecute env.llm (recoveryInput task rq)
        match plan.payload with
        | some payload =>
          if plan.status = "success" ∧ payload.taskGraph.length > 0 then
            let sub := execLoop env f payload.taskGraph payload.taskGraph originalQuery []
            match sub.result with
            | .ok _ =>
              let out := execLoop env f allTasks rest originalQuery (task.id :: completed)
              ⟨out.result, task.id :: (sub.dispatched ++ out.dispatched),
                rq :: (sub.recoveries ++ out.recoveries)⟩
            | .error .fuelOut =>
              ⟨.error .fuelOut, task.id :: sub.dispatched, rq :: sub.recoveries⟩
            | .error (.err _) =>
              ⟨.error (.err (taskFailedMsg task e)), task.id :: sub.dispatched,
                rq :: sub.recoveries⟩
          else ⟨.error (.err (taskFailedMsg task e)), [task.id], [rq]⟩
        | none => ⟨.error (.err (taskFailedMsg task e)), [task.id], [rq]⟩

def executeTaskGraph (env : OrchEnv) (fuel : Nat) (tasks : List TaskNode) (q : String) :
    RunOut :=
  execLoop env fuel tasks tasks q []

/-- `executeRequest` (part_005 66-98): plan, then execute; the planner's
`executionOrder` is never consulted — the raw `taskGraph` array is passed
to `executeTaskGraph`. -/
def executeRequest (env : OrchEnv) (fuel : Nat) (query : String) (projectType : String)
    (fileStructure : List String) (activeFilePath : Option String) :
    Option String × RunOut :=
  let planResult := plannerExecute env.llm
    ⟨query, projectType, fileStructure, [], none, activeFilePath⟩
  let graphLen := (planResult.payload.map (fun p => p.taskGraph.length)).getD 0
  if !(planResult.status == "success") || planResult.payload.isNone || graphLen == 0 then
    (some ("Failed to generate a valid plan. Error: " ++
      (planResult.errorMsg.getD "Unknown planning error")), ⟨.ok (), [], []⟩)
  else
    let tasks := (planResult.payload.map (fun p => p.taskGraph)).getD []
    let run := executeTaskGraph env fuel tasks query
    match run.result with
    | .ok _ => (some "Request completed successfully.", run)
    | .error (.err m) => (some ("Execution failed: " ++ m), run)
    | .error .fuelOut => (none, run)

/-! ## Proof development: index helper lemmas -/

theorem idxOf'_lt_length {a : String} {l : List String} (h : a ∈ l) :
    idxOf' a l < l.length := by
  induction l with
  | nil => cases h
  | cons x xs ih =>
    by_cases hx : x = a
    · simp [idxOf', hx]
    · rcases List.mem_cons.1 h with h | h
      · exact absurd h.symm hx
      · simp only [idxOf', if_neg hx, List.length_cons]
        exact Nat.succ_lt_succ (ih h)

theorem idxOf'_append_left {a : String} {l r : List String} (h : a ∈ l) :
    idxOf' a (l ++ r) = idxOf' a l := by
  induction l with
  | nil => cases h
  | cons x xs ih =>
    by_cases hx : x = a
    · simp [idxOf', hx]
    · rcases List.mem_cons.1 h with h | h
      · exact absurd h.symm hx
      · simp only [List.cons_append, idxOf', if_neg hx]
        exact congrArg (· + 1) (ih h)

theorem idxOf'_append_self {a : String} {l : List String} (h : a ∉ l) :
    idxOf' a (l ++ [a]) = l.length := by
  induction l with
  | nil => simp [idxOf']
  | cons x xs ih =>
    have hx : x ≠ a := fun hc => h (hc ▸ List.mem_cons_self x xs)
    simp only [List.cons_append, idxOf', if_neg hx, List.length_cons]
    exact congrArg (· + 1) (ih (fun hc => h (List.mem_cons_of_mem x hc)))

/-! ## Proof development: DFS invariants of the topological sort -/

theorem exFold_nil (g : α → σ → Except ε σ) (st : σ) : exFold g [] st = .ok st := rfl

theorem exFold_cons (g : α → σ → Except ε σ) (a : α) (l : List α) (st : σ) :
    exFold g (a :: l) st =
      match g a st with
      | .error e => .error e
      | .ok st' => exFold g l st' := rfl

/-- state extension along a successful visit: the result grows by a
suffix, visited grows, visiting is restored, and every newly visited id
was not in flight when the visit began. -/
def TopoExt (s s' : TopoState) : Prop :=
  (∃ r, s'.result = s.result ++ r) ∧
  (∀ x ∈ s.visited, x ∈ s'.visited) ∧
  s'.visiting = s.visiting ∧
  (∀ x ∈ s'.visited, x ∈ s.visited ∨ x ∉ s.visiting)

theorem topoExt_rfl (s : TopoState) : TopoExt s s :=
  ⟨⟨[], by simp⟩, fun _ h => h, rfl, fun _ hx => .inl hx⟩

theorem topoExt_trans {s s' s'' : TopoState} (h1 : TopoExt s s') (h2 : TopoExt s' s'') :
    TopoExt s s'' := by
  obtain ⟨⟨r1, hr1⟩, hv1, hg1, hb1⟩ := h1
  obtain ⟨⟨r2, hr2⟩, hv2, hg2, hb2⟩ := h2
  refine ⟨⟨r1 ++ r2, by rw [hr2, hr1, List.append_assoc]⟩,
    fun x hx => hv2 x (hv1 x hx), by rw [hg2, hg1], fun x hx => ?_⟩
  rcases hb2 x hx with h | h
  · exact hb1 x h
  · right; rw [hg1] at h; exact h

theorem topoVisit_zero (tasks : List TaskNode) (id : String) (st : TopoState) :
    topoVisit tasks 0 id st = .error .fuelOut := rfl

theorem topoVisit_succ (tasks : List TaskNode) (f : Nat) (id : String) (st : TopoState) :
    topoVisit tasks (f + 1) id st =
      if id ∈ st.visited then .ok st
      else if id ∈ st.visiting then .error .cycle
      else
        match exFold (fun d s => topoVisit tasks f d s) (depsOf tasks id)
            { st with visiting := id :: st.visiting } with
        | .error e => .error e
        | .ok st2 =>
          .ok { result := st2.result ++ [id]
                visited := id :: st2.visited
                visiting := st2.visiting.erase id } := rfl

theorem topoVisit_ext (tasks : List TaskNode) :
    ∀ (f : Nat) (id : String) (st st' : TopoState),
      topoVisit tasks f id st = .ok st' → TopoExt st st' ∧ id ∈ st'.visited := by
  intro f
  induction f with
  | zero =>
    intro id st st' h
    rw [topoVisit_zero] at h
    cases h
  | succ f ih =>
    have fold : ∀ (deps : List String) (s s2 : TopoState),
        exFold (fun d s => topoVisit tasks f d s) deps s = .ok s2 →
        TopoExt s s2 ∧ ∀ d ∈ deps, d ∈ s2.visited := by
      intro deps
      induction deps with
      | nil =>
        intro s s2 h
        rw [exFold_nil] at h
        cases h
        exact ⟨topoExt_rfl _, by simp⟩
      | cons d ds ihd =>
        intro s s2 h
        rw [exFold_cons] at h
        cases hv : topoVisit tasks f d s with
        | error e => rw [hv] at h; cases h
        | ok s1 =>
          rw [hv] at h
          obtain ⟨he1, hd1⟩ := ih d s s1 hv
          obtain ⟨he2, hall⟩ := ihd s1 s2 h
          refine ⟨topoExt_trans he1 he2, ?_⟩
          intro x hx
          rcases List.mem_cons.1 hx with hx | hx
          · subst hx; exact he2.2.1 x hd1
          · exact hall x hx
    intro id st st' h
    rw [topoVisit_succ] at h
    by_cases h1 : id ∈ st.visited
    · rw [if_pos h1] at h
      cases h
      exact ⟨topoExt_rfl _, h1⟩
    · by_cases h2 : id ∈ st.visiting
      · rw [if_neg h1, if_pos h2] at h
        cases h
      · rw [if_neg h1, if_neg h2] at h
        cases hf : exFold (fun d s => topoVisit tasks f d s) (depsOf tasks id)
            { st with visiting := id :: st.visiting } with
        | error e => rw [hf] at h; cases h
        | ok st2 =>
          rw [hf] at h
          cases h
          obtain ⟨⟨r, hr⟩, hv, hg, hb⟩ := (fold _ _ _ hf).1
          refine ⟨⟨⟨r ++ [id], by simpa [List.append_assoc] using congrArg (· ++ [id]) hr⟩,
            ?_, ?_, ?_⟩, by simp⟩
          · intro x hx
            exact List.mem_cons_of_mem _ (hv x hx)
          · show TopoState.visiting _ = st.visiting
            simp only [hg]
            exact List.erase_cons_head id st.visiting
          · intro x hx
            rcases List.mem_cons.1 hx with hx | hx
            · subst hx; exact .inr h2
            · rcases hb x hx with hx' | hx'
              · exact .inl hx'
              · right
                intro hc
                exact hx' (List.mem_cons_of_mem _ hc)

theorem exFold_visit_ext (tasks : List TaskNode) (f : Nat) :
    ∀ (deps : List String) (s s2 : TopoState),
      exFold (fun d s => topoVisit tasks f d s) deps s = .ok s2 →
      TopoExt s s2 ∧ ∀ d ∈ deps, d ∈ s2.visited := by
  intro deps
  induction deps with
  | nil =>
    intro s s2 h
    rw [exFold_nil] at h
    cases h
    exact ⟨topoExt_rfl _, by simp⟩
  | cons d ds ihd =>
    intro s s2 h
    rw [exFold_cons] at h
    cases hv : topoVisit tasks f d s with
    | error e => rw [hv] at h; cases h
    | ok s1 =>
      rw [hv] at h
      obtain ⟨he1, hd1⟩ := topoVisit_ext tasks f d s s1 hv
      obtain ⟨he2, hall⟩ := ihd s1 s2 h
      refine ⟨topoExt_trans he1 he2, ?_⟩
      intro x hx
      rcases List.mem_cons.1 hx with hx | hx
      · subst hx; exact he2.2.1 x hd1
      · exact hall x hx

/-- the ordering invariant: the emitted prefix lists every visited id in
completion order without duplicates, and each visited id's dependencies
are emitted strictly earlier. -/
def TopoGood (tasks : List TaskNode) (s : TopoState) : Prop :=
  s.result = s.visited.reverse ∧ s.result.Nodup ∧
  ∀ v ∈ s.visited, ∀ d ∈ depsOf tasks v,
    d ∈ s.visited ∧ idxOf' d s.result < idxOf' v s.result

theorem topoVisit_good (tasks : List TaskNode) :
    ∀ (f : Nat) (id : String) (st st' : TopoState),
      TopoGood tasks st → topoVisit tasks f id st = .ok st' → TopoGood tasks st' := by
  intro f
  induction f with
  | zero =>
    intro id st st' _ h
    rw [topoVisit_zero] at h
    cases h
  | succ f ih =>
    have fold : ∀ (deps : List String) (s s2 : TopoState), TopoGood tasks s →
        exFold (fun d s => topoVisit tasks f d s) deps s = .ok s2 → TopoGood tasks s2 := by
      intro deps
      induction deps with
      | nil =>
        intro s s2 hg h
        rw [exFold_nil] at h
        cases h
        exact hg
      | cons d ds ihd =>
        intro s s2 hg h
        rw [exFold_cons] at h
        cases hv : topoVisit tasks f d s with
        | error e => rw [hv] at h; cases h
        | ok s1 =>
          rw [hv] at h
          exact ihd s1 s2 (ih d s s1 hg hv) h
    intro id st st' hg h
    rw [topoVisit_succ] at h
    by_cases h1 : id ∈ st.visited
    · rw [if_pos h1] at h
      cases h
      exact hg
    · by_cases h2 : id ∈ st.visiting
      · rw [if_neg h1, if_pos h2] at h
        cases h
      · rw [if_neg h1, if_neg h2] at h
        cases hf : exFold (fun d s => topoVisit tasks f d s) (depsOf tasks id)
            { st with visiting := id :: st.visiting } with
        | error e => rw [hf] at h; cases h
        | ok st2 =>
          rw [hf] at h
          cases h
          have hg1 : TopoGood tasks { st with visiting := id :: st.visiting } := hg
          have hgood2 : TopoGood tasks st2 := fold _ _ _ hg1 hf
          obtain ⟨hext, hdeps⟩ := exFold_visit_ext tasks f (depsOf tasks id) _ _ hf
          have hid2 : id ∉ st2.visited := by
            intro hc
            rcases hext.2.2.2 id hc with hc' | hc'
            · exact h1 hc'
            · exact hc' (List.mem_cons_self id st.visiting)
          obtain ⟨hres2, hnd2, hinv2⟩ := hgood2
          have hidres : id ∉ st2.result := by
            rw [hres2]
            simpa using hid2
          refine ⟨?_, ?_, ?_⟩
          · show st2.result ++ [id] = (id :: st2.visited).reverse
            rw [List.reverse_cons, hres2]
          · simp [List.nodup_append, hnd2, hidres]
          · intro v hv d hd
            rcases List.mem_cons.1 hv with hv | hv
            · subst hv
              have hdv : d ∈ st2.visited := hdeps d hd
              have hdres : d ∈ st2.result := by
                rw [hres2]
                simpa using hdv
              refine ⟨List.mem_cons_of_mem _ hdv, ?_⟩
              show idxOf' d (st2.result ++ [v]) < idxOf' v (st2.result ++ [v])
              rw [idxOf'_append_left hdres, idxOf'_append_self hidres]
              exact idxOf'_lt_length hdres
            · obtain ⟨hdv, hlt⟩ := hinv2 v hv d hd
              have hdres : d ∈ st2.result := by
                rw [hres2]
                simpa using hdv
              have hvres : v ∈ st2.result := by
                rw [hres2]
                simpa using hv
              refine ⟨List.mem_cons_of_mem _ hdv, ?_⟩
              show idxOf' d (st2.result ++ [id]) < idxOf' v (st2.result ++ [id])
              rw [idxOf'_append_left hdres, idxOf'_append_left hvres]
              exact hlt

theorem exFold_roots_good (tasks : List TaskNode) (F : Nat) :
    ∀ (ts : List TaskNode) (st st' : TopoState), TopoGood tasks st →
      exFold (fun (t : TaskNode) st => topoVisit tasks F t.id st) ts st = .ok st' →
      TopoGood tasks st' ∧ TopoExt st st' ∧ ∀ t ∈ ts, t.id ∈ st'.visited := by
  intro ts
  induction ts with
  | nil =>
    intro st st' hg h
    rw [exFold_nil] at h
    cases h
    exact ⟨hg, topoExt_rfl _, by simp⟩
  | cons t ts iht =>
    intro st st' hg h
    rw [exFold_cons] at h
    cases hv : topoVisit tasks F t.id st with
    | error e => rw [hv] at h; cases h
    | ok s1 =>
      rw [hv] at h
      obtain ⟨he1, hm1⟩ := topoVisit_ext tasks F t.id st s1 hv
      have hg1 : TopoGood tasks s1 := topoVisit_good tasks F t.id st s1 hg hv
      obtain ⟨hg2, he2, hall⟩ := iht s1 st' hg1 h
      refine ⟨hg2, topoExt_trans he1 he2, ?_⟩
      intro u hu
      rcases List.mem_cons.1 hu with hu | hu
      · subst hu; exact he2.2.1 _ hm1
      · exact hall u hu

theorem topo_ok_state (tasks : List TaskNode) (order : List String)
    (h : topologicalSort tasks = .ok order) :
    ∃ st' : TopoState, order = st'.result ∧ TopoGood tasks st' ∧
      ∀ t ∈ tasks, t.id ∈ st'.visited := by
  unfold topologicalSort at h
  cases hf : exFold (fun (t : TaskNode) st => topoVisit tasks (topoFuel tasks) t.id st) tasks
      ⟨[], [], []⟩ with
  | error e => rw [hf] at h; cases h
  | ok st' =>
    rw [hf] at h
    cases h
    have hg0 : TopoGood tasks ⟨[], [], []⟩ := ⟨rfl, List.nodup_nil, by simp⟩
    obtain ⟨hg, _, hall⟩ := exFold_roots_good tasks (topoFuel tasks) tasks _ _ hg0 hf
    exact ⟨st', rfl, hg, hall⟩

/-- soundness of the returned order: every task id is emitted, and every
dependency the sort resolves (through the id map) is emitted strictly
earlier than its dependent. -/
theorem topo_sound (tasks : List TaskNode) (order : List String)
    (h : topologicalSort tasks = .ok order) :
    (∀ t ∈ tasks, t.id ∈ order) ∧
    (∀ v ∈ order, ∀ d ∈ depsOf tasks v,
      d ∈ order ∧ idxOf' d order < idxOf' v order) := by
  obtain ⟨st', horder, ⟨hres, _, hinv⟩, hall⟩ := topo_ok_state tasks order h
  subst horder
  have hmemiff : ∀ x : String, x ∈ st'.result ↔ x ∈ st'.visited := by
    intro x
    rw [hres]
    simp
  constructor
  · intro t ht
    exact (hmemiff t.id).2 (hall t ht)
  · intro v hv d hd
    obtain ⟨hdv, hlt⟩ := hinv v ((hmemiff v).1 hv) d hd
    exact ⟨(hmemiff d).2 hdv, hlt⟩

/-! ## Proof development: fuel sufficiency of the fuelled DFS -/

theorem jsMapGet_go (id : String) :
    ∀ (ts : List TaskNode) (acc : Option TaskNode) (t : TaskNode),
      ts.foldl (fun acc t => if t.id = id then some t else acc) acc = some t →
      (t ∈ ts ∧ t.id = id) ∨ acc = some t := by
  intro ts
  induction ts with
  | nil => intro acc t h; exact .inr h
  | cons u us ih =>
    intro acc t h
    rcases ih _ t h with ⟨hm, hid⟩ | hacc
    · exact .inl ⟨List.mem_cons_of_mem _ hm, hid⟩
    · have hacc' : (if u.id = id then some u else acc) = some t := hacc
      by_cases hu : u.id = id
      · rw [if_pos hu] at hacc'
        cases hacc'
        exact .inl ⟨List.mem_cons_self _ _, hu⟩
      · rw [if_neg hu] at hacc'
        exact .inr hacc'

theorem jsMapGet_mem {tasks : List TaskNode} {id : String} {t : TaskNode}
    (h : jsMapGet tasks id = some t) : t ∈ tasks ∧ t.id = id := by
  rcases jsMapGet_go id tasks none t h with hm | hacc
  · exact hm
  · cases hacc

theorem depsOf_sub_univ {tasks : List TaskNode} {id d : String}
    (h : d ∈ depsOf tasks id) : d ∈ topoUniv tasks := by
  unfold depsOf at h
  cases hm : jsMapGet tasks id with
  | none => rw [hm] at h; cases h
  | some t =>
    rw [hm] at h
    obtain ⟨hmem, _⟩ := jsMapGet_mem hm
    unfold topoUniv
    refine List.mem_append_right _ ?_
    exact List.mem_flatMap.2 ⟨t, hmem, h⟩

theorem taskId_mem_univ {tasks : List TaskNode} {t : TaskNode} (h : t ∈ tasks) :
    t.id ∈ topoUniv tasks := by
  unfold topoUniv taskIds
  exact List.mem_append_left _ (List.mem_map_of_mem _ h)

theorem topoVisit_nofuel (tasks : List TaskNode) :
    ∀ (f : Nat) (id : String) (st : TopoState),
      st.visiting.Nodup → (∀ x ∈ st.visiting, x ∈ topoUniv tasks) →
      id ∈ topoUniv tasks →
      (topoUniv tasks).toFinset.card - st.visiting.length + 1 ≤ f →
      topoVisit tasks f id st ≠ .error .fuelOut := by
  intro f
  induction f with
  | zero =>
    intro id st _ _ _ hf
    omega
  | succ f ih =>
    have fold : ∀ (deps : List String) (s : TopoState),
        s.visiting.Nodup → (∀ x ∈ s.visiting, x ∈ topoUniv tasks) →
        (∀ d ∈ deps, d ∈ topoUniv tasks) →
        (topoUniv tasks).toFinset.card - s.visiting.length + 1 ≤ f →
        exFold (fun d s => topoVisit tasks f d s) deps s ≠ .error .fuelOut := by
      intro deps
      induction deps with
      | nil =>
        intro s _ _ _ _ h
        rw [exFold_nil] at h
        cases h
      | cons d ds ihd =>
        intro s hnd hsub hdeps hf h
        rw [exFold_cons] at h
        cases hv : topoVisit tasks f d s with
        | error e =>
          rw [hv] at h
          cases h
          exact ih d s hnd hsub (hdeps d (List.mem_cons_self _ _)) hf hv
        | ok s1 =>
          rw [hv] at h
          obtain ⟨⟨_, _, hvg, _⟩, _⟩ := topoVisit_ext tasks f d s s1 hv
          refine ihd s1 ?_ ?_ (fun x hx => hdeps x (List.mem_cons_of_mem _ hx)) ?_ h
          · rw [hvg]; exact hnd
          · rw [hvg]; exact hsub
          · rw [hvg]; exact hf
    intro id st hnd hsub hid hf h
    rw [topoVisit_succ] at h
    by_cases h1 : id ∈ st.visited
    · rw [if_pos h1] at h
      cases h
    · by_cases h2 : id ∈ st.visiting
      · rw [if_neg h1, if_pos h2] at h
        cases h
      · rw [if_neg h1, if_neg h2] at h
        have hnd1 : (id :: st.visiting).Nodup := List.nodup_cons.2 ⟨h2, hnd⟩
        have hsub1 : ∀ x ∈ id :: st.visiting, x ∈ topoUniv tasks := by
          intro x hx
          rcases List.mem_cons.1 hx with hx | hx
          · subst hx; exact hid
          · exact hsub x hx
        have hcard : (id :: st.visiting).length ≤ (topoUniv tasks).toFinset.card := by
          have hsubf : (id :: st.visiting).toFinset ⊆ (topoUniv tasks).toFinset := by
            intro x hx
            rw [List.mem_toFinset] at hx
            rw [List.mem_toFinset]
            exact hsub1 x hx
          calc (id :: st.visiting).length = (id :: st.visiting).toFinset.card :=
                (List.toFinset_card_of_nodup hnd1).symm
            _ ≤ (topoUniv tasks).toFinset.card := Finset.card_le_card hsubf
        have hf1 : (topoUniv tasks).toFinset.card - (id :: st.visiting).length + 1 ≤ f := by
          simp only [List.length_cons] at hcard ⊢
          omega
        cases hfo : exFold (fun d s => topoVisit tasks f d s) (depsOf tasks id)
            { st with visiting := id :: st.visiting } with
        | error e =>
          rw [hfo] at h
          cases h
          exact fold (depsOf tasks id) _ hnd1 hsub1 (fun d hd => depsOf_sub_univ hd) hf1 hfo
        | ok st2 =>
          rw [hfo] at h
          cases h

theorem topo_no_fuelOut (tasks : List TaskNode) :
    topologicalSort tasks ≠ .error .fuelOut := by
  unfold topologicalSort
  have fold : ∀ (ts : List TaskNode) (st : TopoState), st.visiting = [] →
      (∀ t ∈ ts, t.id ∈ topoUniv tasks) →
      exFold (fun (t : TaskNode) st => topoVisit tasks (topoFuel tasks) t.id st) ts st ≠
        .error .fuelOut := by
    intro ts
    induction ts with
    | nil =>
      intro st _ _ h
      rw [exFold_nil] at h
      cases h
    | cons t ts iht =>
      intro st hemp hids h
      rw [exFold_cons] at h
      have hfuel : (topoUniv tasks).toFinset.card - st.visiting.length + 1 ≤ topoFuel tasks := by
        have := List.toFinset_card_le (topoUniv tasks)
        unfold topoFuel
        omega
      cases hv : topoVisit tasks (topoFuel tasks) t.id st with
      | error e =>
        rw [hv] at h
        cases h
        refine topoVisit_nofuel tasks (topoFuel tasks) t.id st ?_ ?_
          (hids t (List.mem_cons_self _ _)) hfuel hv
        · rw [hemp]; exact List.nodup_nil
        · rw [hemp]; intro x hx; cases hx
      | ok s1 =>
        rw [hv] at h
        obtain ⟨⟨_, _, hvg, _⟩, _⟩ := topoVisit_ext tasks _ t.id st s1 hv
        refine iht s1 ?_ (fun u hu => hids u (List.mem_cons_of_mem _ hu)) h
        rw [hvg, hemp]
  intro h
  cases hfo : exFold (fun (t : TaskNode) st => topoVisit tasks (topoFuel tasks) t.id st) tasks
      ⟨[], [], []⟩ with
  | error e =>
    rw [hfo] at h
    cases h
    exact fold tasks ⟨[], [], []⟩ rfl (fun t ht => taskId_mem_univ ht) hfo
  | ok st =>
    rw [hfo] at h
    cases h

/-- a dependency edge among tasks present in the graph: `x`'s resolved
dependency list contains `y`, and both ids have tasks in the map. -/
def DepEdge (tasks : List TaskNode) (x y : String) : Prop :=
  y ∈ depsOf tasks x ∧ (jsMapGet tasks x).isSome ∧ (jsMapGet tasks y).isSome

theorem topo_cyclic_error (tasks : List TaskNode)
    (hcyc : ∃ a, Relation.TransGen (DepEdge tasks) a a) :
    topologicalSort tasks = .error .cycle := by
  obtain ⟨a, ha⟩ := hcyc
  cases hres : topologicalSort tasks with
  | ok order =>
    exfalso
    obtain ⟨hids, hord⟩ := topo_sound tasks order hres
    have hmem : ∀ x : String, (jsMapGet tasks x).isSome → x ∈ order := by
      intro x hx
      cases hm : jsMapGet tasks x with
      | none => rw [hm] at hx; cases hx
      | some t =>
        obtain ⟨htm, hti⟩ := jsMapGet_mem hm
        exact hti ▸ hids t htm
    have hstep : ∀ x y : String, DepEdge tasks x y →
        idxOf' y order < idxOf' x order := by
      intro x y ⟨hdep, hx, _⟩
      exact (hord x (hmem x hx) y hdep).2
    have hlt : ∀ x y : String, Relation.TransGen (DepEdge tasks) x y →
        idxOf' y order < idxOf' x order := by
      intro x y h
      induction h with
      | single h => exact hstep _ _ h
      | tail _ hbc ih => exact Nat.lt_trans (hstep _ _ hbc) ih
    exact Nat.lt_irrefl _ (hlt a a ha)
  | error e =>
    cases e with
    | cycle => rfl
    | fuelOut => exact absurd hres (topo_no_fuelOut tasks)

/-! ## Proof development: map lookup under unique ids -/

theorem jsMapGet_stable {id : String} :
    ∀ (ts : List TaskNode) (acc : Option TaskNode), id ∉ taskIds ts →
      ts.foldl (fun acc t => if t.id = id then some t else acc) acc = acc := by
  intro ts
  induction ts with
  | nil => intro acc _; rfl
  | cons u us ih =>
    intro acc hnm
    have hu : u.id ≠ id := by
      intro hc
      apply hnm
      rw [← hc]
      simp [taskIds]
    show us.foldl _ (if u.id = id then some u else acc) = acc
    rw [if_neg hu]
    refine ih acc ?_
    intro hc
    refine hnm ?_
    simp only [taskIds, List.map_cons, List.mem_cons]
    exact .inr hc

theorem jsMapGet_of_nodup {tasks : List TaskNode} (hnd : (taskIds tasks).Nodup)
    {t : TaskNode} (ht : t ∈ tasks) : jsMapGet tasks t.id = some t := by
  induction tasks with
  | nil => cases ht
  | cons u us ih =>
    simp only [taskIds, List.map_cons, List.nodup_cons] at hnd
    obtain ⟨hu, hnd'⟩ := hnd
    rcases List.mem_cons.1 ht with ht | ht
    · subst ht
      show us.foldl _ (if t.id = t.id then some t else none) = some t
      rw [if_pos rfl]
      exact jsMapGet_stable us (some t) hu
    · have hne : u.id ≠ t.id := by
        intro hc
        exact hu (hc ▸ List.mem_map_of_mem (fun x => x.id) ht)
      show us.foldl _ (if u.id = t.id then some u else none) = some t
      rw [if_neg hne]
      exact ih hnd' ht

theorem depsOf_of_nodup {tasks : List TaskNode} (hnd : (taskIds tasks).Nodup)
    {t : TaskNode} (ht : t ∈ tasks) : depsOf tasks t.id = t.dependencies := by
  unfold depsOf
  rw [jsMapGet_of_nodup hnd ht]

/-! ## Claim C3 -/

/-- C3: whenever the Topological Sequencer returns an order, every task id
is emitted, and every dependency id of a task that refers to a task
present in the list appears strictly earlier in the order than the task
itself.  The second conjunct resolves a task's dependency list the way the
source does (through the id map); the third gives the per-task reading
under unique ids. -/
theorem topologicalSort_order_valid (tasks : List TaskNode) (order : List String)
    (h : topologicalSort tasks = .ok order) :
    (∀ t ∈ tasks, t.id ∈ order) ∧
    (∀ v ∈ order, ∀ d ∈ depsOf tasks v, d ∈ taskIds tasks →
      d ∈ order ∧ idxOf' d order < idxOf' v order) ∧
    ((taskIds tasks).Nodup → ∀ t ∈ tasks, ∀ d ∈ t.dependencies, d ∈ taskIds tasks →
      d ∈ order ∧ idxOf' d order < idxOf' t.id order) := by
  obtain ⟨hids, hord⟩ := topo_sound tasks order h
  refine ⟨hids, fun v hv d hd _ => hord v hv d hd, ?_⟩
  intro hnd t ht d hd _
  have hdeps : d ∈ depsOf tasks t.id := by
    rw [depsOf_of_nodup hnd ht]
    exact hd
  exact hord t.id (hids t ht) d hdeps

def taskA3 : TaskNode := ⟨"A", "task A", none, none, none, [], none, "pending", none, none⟩

def taskB3 : TaskNode := ⟨"B", "task B", none, none, none, ["A"], none, "pending", none, none⟩

def taskC3 : TaskNode := ⟨"C", "task C", none, none, none, ["A"], none, "pending", none, none⟩

/-- witness for C3 on the spec's scenario 1 graph. -/
theorem topologicalSort_order_valid_witness :
    idxOf' "A" ["A", "B", "C"] < idxOf' "B" ["A", "B", "C"] ∧
    idxOf' "A" ["A", "B", "C"] < idxOf' "C" ["A", "B", "C"] :=
  ⟨((topologicalSort_order_valid [taskA3, taskB3, taskC3] ["A", "B", "C"] (by decide)).2.2
      (by decide) taskB3 (by decide) "A" (by decide) (by decide)).2,
   ((topologicalSort_order_valid [taskA3, taskB3, taskC3] ["A", "B", "C"] (by decide)).2.2
      (by decide) taskC3 (by decide) "A" (by decide) (by decide)).2⟩

/-! ## Claim C4 -/

def taskAcyc : TaskNode := ⟨"A", "task A", none, none, none, ["B"], none, "pending", none, none⟩

def taskBcyc : TaskNode := ⟨"B", "task B", none, none, none, ["A"], none, "pending", none, none⟩

/-- C4 counterexample: on the two-task cycle the sequencer does fail fast
with the circular-dependency error, but the thrown error message is the
fixed string `Circular dependency detected`, which names neither `A` nor
`B` — no task id on the cycle is named. -/
theorem topologicalSort_cycle_counterexample :
    topologicalSort [taskAcyc, taskBcyc] = .error .cycle ∧
    TopoErr.cycle.message = "Circular dependency detected" ∧
    sContains TopoErr.cycle.message "A" = false ∧
    sContains TopoErr.cycle.message "B" = false := by
  refine ⟨by decide, rfl, by decide, by decide⟩

/-- C4 amended: a dependency cycle among tasks present in the list makes
the sequencer fail fast with the circular-dependency error, whose message
is a fixed string that names no task id. -/
theorem topologicalSort_cyclic_fails_fast (tasks : List TaskNode)
    (hcyc : ∃ a, Relation.TransGen (DepEdge tasks) a a) :
    topologicalSort tasks = .error .cycle ∧
    TopoErr.cycle.message = "Circular dependency detected" :=
  ⟨topo_cyclic_error tasks hcyc, rfl⟩

/-- witness for the amended C4 on the spec's scenario 2 graph. -/
theorem topologicalSort_cyclic_fails_fast_witness :
    topologicalSort [taskAcyc, taskBcyc] = .error .cycle := by
  have e1 : DepEdge [taskAcyc, taskBcyc] "A" "B" := ⟨by decide, by decide, by decide⟩
  have e2 : DepEdge [taskAcyc, taskBcyc] "B" "A" := ⟨by decide, by decide, by decide⟩
  exact (topologicalSort_cyclic_fails_fast [taskAcyc, taskBcyc]
    ⟨"A", Relation.TransGen.head e1 (Relation.TransGen.single e2)⟩).1

/-! ## Claim C10 -/

def taskGhostDep : TaskNode :=
  ⟨"A", "task A", none, none, none, ["ghost"], none, "pending", none, none⟩

/-- C10: a dependency id with no task in the list is neither dropped nor
rejected: it is emitted as an element of the returned order, strictly
before its dependent, so the order can contain non-task ids and exceed the
task list in length (shown concretely on a one-task graph). -/
theorem topologicalSort_unknown_dependency_inserted :
    (∀ (tasks : List TaskNode) (order : List String),
      topologicalSort tasks = .ok order →
      ∀ v ∈ order, ∀ d ∈ depsOf tasks v, d ∉ taskIds tasks →
        d ∈ order ∧ idxOf' d order < idxOf' v order) ∧
    (topologicalSort [taskGhostDep] = .ok ["ghost", "A"] ∧
      "ghost" ∉ taskIds [taskGhostDep] ∧
      ["ghost", "A"].length > [taskGhostDep].length) := by
  constructor
  · intro tasks order h v hv d hd _
    exact (topo_sound tasks order h).2 v hv d hd
  · exact ⟨by decide, by decide, by decide⟩

/-- witness for C10's universally quantified part on the one-task graph. -/
theorem topologicalSort_unknown_dependency_inserted_witness :
    "ghost" ∈ ["ghost", "A"] ∧ idxOf' "ghost" ["ghost", "A"] < idxOf' "A" ["ghost", "A"] :=
  topologicalSort_unknown_dependency_inserted.1 [taskGhostDep] ["ghost", "A"] (by decide)
    "A" (by decide) "ghost" (by decide) (by decide)

/-! ## Concrete scenario material shared by the remaining claims -/

def inputDocs : TaskPlannerInput := ⟨"polish docs", "generic", [], [], none, none⟩

/-- synthesis oracle whose output never yields a parseable array. -/
def llmNoSynth : SynthOracle := fun _ => none

/-- synthesis oracle returning the empty array `[]`. -/
def llmEmptySyn : SynthOracle := fun _ => some []

def rawDup : List RawTask :=
  [⟨some "a", "first", none, some ["zzz"], none⟩,
   ⟨some "a", "second", none, none, none⟩]

def rawBA : List RawTask :=
  [⟨some "t_b", "write b", some "code", some ["t_a"], none⟩,
   ⟨some "t_a", "write a", some "code", some [], none⟩]

def llmSynthBA : SynthOracle := fun _ => some rawBA

def arOk : AgentResult := ⟨"success", some ⟨0, "", ""⟩⟩

def arExit1 : AgentResult := ⟨"success", some ⟨1, "", ""⟩⟩

/-- an environment whose capabilities always resolve, whose executor
always returns `vr`, with synthesis oracle `llm`. -/
def envOf (llm : SynthOracle) (vr : AgentResult) : OrchEnv :=
  ⟨fun _ _ => .ok (), fun _ => .ok vr, llm⟩

/-! ## Claim C5 -/

/-- C5 counterexample: two raw synthesis tasks carrying the same id `a`
and a dependency `zzz` matching no node of the graph.  The builder keeps
both ids (no renaming to uniqueness) and keeps the dangling dependency
(no re-validation dropping it). -/
theorem parseTaskResponse_counterexample :
    taskIds (parseTaskResponse 0 (some rawDup)).1 = ["a", "a"] ∧
    ¬ (taskIds (parseTaskResponse 0 (some rawDup)).1).Nodup ∧
    ((parseTaskResponse 0 (some rawDup)).1.head?.map (fun t => t.dependencies)) =
      some ["zzz"] ∧
    "zzz" ∉ taskIds (parseTaskResponse 0 (some rawDup)).1 := by
  refine ⟨by decide, by decide, by decide, by decide⟩

/-- C5 amended: the builder keeps every synthesis-provided id verbatim
whenever it is present and non-empty (fresh counter ids are assigned only
to missing or empty ids), and passes each node's dependency list through
unvalidated — dependencies referencing nonexistent ids are retained, not
dropped. -/
theorem parseTaskResponse_keeps_ids_and_deps :
    ∀ (raw : List RawTask) (c i : Nat) (rt : RawTask),
      raw.get? i = some rt →
      ∃ node : TaskNode,
        (parseTasksFromRaw c raw).1.get? i = some node ∧
        node.dependencies = rt.dependencies.getD [] ∧
        (∀ s, rt.id = some s → s ≠ "" → node.id = s) := by
  intro raw
  induction raw with
  | nil => intro c i rt h; cases h
  | cons u us ih =>
    intro c i rt h
    match i with
    | 0 =>
      have hur : u = rt := by
        have h0 : some u = some rt := h
        injection h0
      subst hur
      cases hidc : rawTaskId u c with
      | mk tid c1 =>
        refine ⟨⟨tid, u.description, some (rawTaskType u), none, u.command,
          u.dependencies.getD [], none, "pending", some 0, none⟩, ?_, rfl, ?_⟩
        · show (parseTasksFromRaw c (u :: us)).1.get? 0 = _
          unfold parseTasksFromRaw
          rw [hidc]
          rfl
        · intro s hs hne
          unfold rawTaskId at hidc
          rw [hs] at hidc
          have hidc' : (if s = "" then ("task_" ++ toString c, c + 1) else (s, c)) =
              (tid, c1) := hidc
          rw [if_neg hne] at hidc'
          cases hidc'
          rfl
    | i' + 1 =>
      have h' : us.get? i' = some rt := h
      cases hidc : rawTaskId u c with
      | mk tid c1 =>
        obtain ⟨node, hn, hdeps, hid⟩ := ih c1 i' rt h'
        refine ⟨node, ?_, hdeps, hid⟩
        show (parseTasksFromRaw c (u :: us)).1.get? (i' + 1) = some node
        unfold parseTasksFromRaw
        rw [hidc]
        simpa using hn

/-- witness for the amended C5 on the duplicate-id raw array. -/
theorem parseTaskResponse_keeps_ids_and_deps_witness :
    ∃ node : TaskNode,
      (parseTasksFromRaw 0 rawDup).1.get? 0 = some node ∧
      node.dependencies = (some ["zzz"] : Option (List String)).getD [] ∧
      (∀ s, (some "a" : Option String) = some s → s ≠ "" → node.id = s) :=
  parseTaskResponse_keeps_ids_and_deps rawDup 0 0
    ⟨some "a", "first", none, some ["zzz"], none⟩ (by decide)

/-! ## Claim C6 -/

/-- C6 counterexample: on a request classified for delegated synthesis, an
empty synthesis array does not produce a `PlanningFailed` error — the
planner succeeds with the substituted four-task generic template, and the
Execution Supervisor is then invoked on it (the run dispatches tasks and
completes). -/
theorem emptySynthesis_counterexample :
    detectTaskType inputDocs = .generic ∧
    (plannerExecute llmEmptySyn inputDocs).status = "success" ∧
    ((plannerExecute llmEmptySyn inputDocs).payload.map
      (fun p => p.taskGraph.length)) = some 4 ∧
    (executeRequest (envOf llmEmptySyn arOk) 10 "polish docs" "generic" [] none).1 =
      some "Request completed successfully." ∧
    (executeRequest (envOf llmEmptySyn arOk) 10 "polish docs" "generic" [] none).2.dispatched =
      ["task_000", "task_001", "task_002", "task_003"] := by
  refine ⟨by decide, by decide, by decide, by decide, by decide⟩

/-- C6 amended: an empty synthesis response does not yield
`PlanningFailed`; the Graph Builder substitutes the fixed four-task
generic template and planning succeeds, so the Sequencer and Supervisor
do run. -/
theorem emptySynthesis_falls_back_to_generic (llm : SynthOracle) (input : TaskPlannerInput)
    (hdet : detectTaskType input = .generic)
    (hllm : llm (constructDynamicPlanningPrompt input) = some []) :
    generateTaskGraph llm input 0 = generateGenericTasks input 0 ∧
    (generateTaskGraph llm input 0).1.length = 4 := by
  have hgen : generateTaskGraph llm input 0 = generateGenericTasks input 0 := by
    unfold generateTaskGraph
    rw [hdet]
    unfold generateDynamicTasks
    rw [hllm]
    rfl
  exact ⟨hgen, by rw [hgen]; rfl⟩

/-- witness for the amended C6. -/
theorem emptySynthesis_falls_back_to_generic_witness :
    (generateTaskGraph llmEmptySyn inputDocs 0).1.length = 4 :=
  (emptySynthesis_falls_back_to_generic llmEmptySyn inputDocs (by decide) (by decide)).2

/-! ## Claim C9 -/

/-- the recovery query the supervisor builds when the generic template's
final task fails its `npm test` validation on the `polish docs` request. -/
def rq9 : String :=
  "Task \x27Verify & Validate\x27 failed with error: Validation failed for task task_003: Unknown error. Fix it. Context: polish docs"

/-- C9 counterexample: in a run of the `polish docs` request whose final
task fails validation, the supervisor plans a recovery sub-graph — and the
planner, whose id counter resets to 0 on every `execute`, hands back a
sub-graph with exactly the parent graph's ids `task_000 … task_003`: the
recovery ids alias the parent ids instead of being fresh. -/
theorem recovery_ids_alias_parent_counterexample :
    ((plannerExecute llmNoSynth inputDocs).payload.map (fun p => taskIds p.taskGraph)) =
      some ["task_000", "task_001", "task_002", "task_003"] ∧
    (executeRequest (envOf llmNoSynth arExit1) 10 "polish docs" "generic" [] none).2.recoveries.head? =
      some rq9 ∧
    ((plannerExecute llmNoSynth ⟨rq9, "recovery", [], [], none, none⟩).payload.map
      (fun p => taskIds p.taskGraph)) =
      some ["task_000", "task_001", "task_002", "task_003"] ∧
    "task_000" ∈ ["task_000", "task_001", "task_002", "task_003"] := by
  refine ⟨by decide, by decide, by decide, by decide⟩

/-- C9 amended: within one graph produced by the counter-based generic
template the ids are unique (`task_000 … task_003`), but recovery
sub-graph ids are not fresh: the planner resets its id counter on every
execution, so a recovery sub-graph can reuse exactly the parent graph's
ids (shown by the aliasing run above). -/
theorem generic_template_ids_unique_but_not_fresh (llm : SynthOracle)
    (input : TaskPlannerInput)
    (hdet : detectTaskType input = .generic)
    (hllm : llm (constructDynamicPlanningPrompt input) = none) :
    taskIds (generateTaskGraph llm input 0).1 =
      ["task_000", "task_001", "task_002", "task_003"] ∧
    (taskIds (generateTaskGraph llm input 0).1).Nodup ∧
    ((plannerExecute llmNoSynth ⟨rq9, "recovery", [], [], none, none⟩).payload.map
      (fun p => taskIds p.taskGraph)) =
      ((plannerExecute llmNoSynth inputDocs).payload.map (fun p => taskIds p.taskGraph)) := by
  have hgen : generateTaskGraph llm input 0 = generateGenericTasks input 0 := by
    unfold generateTaskGraph
    rw [hdet]
    unfold generateDynamicTasks
    rw [hllm]
    rfl
  have hids : taskIds (generateTaskGraph llm input 0).1 =
      ["task_000", "task_001", "task_002", "task_003"] := by
    rw [hgen]
    rfl
  refine ⟨hids, ?_, by decide⟩
  rw [hids]
  decide

/-- witness for the amended C9. -/
theorem generic_template_ids_unique_but_not_fresh_witness :
    (taskIds (generateTaskGraph llmNoSynth inputDocs 0).1).Nodup :=
  (generic_template_ids_unique_but_not_fresh llmNoSynth inputDocs (by decide) (by decide)).2.1

/-! ## Claim C2 -/

/-- an unfolding equation for one supervisor step. -/
theorem execLoop_step (env : OrchEnv) (f : Nat) (allTasks : List TaskNode)
    (task : TaskNode) (rest : List TaskNode) (q : String) (completed : List String) :
    execLoop env (f + 1) allTasks (task :: rest) q completed =
      (let pd := pendingDeps task completed allTasks
       if pd ≠ [] then ⟨.error (.err (depUnmetMsg task pd)), [], []⟩
       else
         match executeSingleTask env task q with
         | .ok _ =>
           let out := execLoop env f allTasks rest q (task.id :: completed)
           ⟨out.result, task.id :: out.dispatched, out.recoveries⟩
         | .error e =>
           let rq := mkRecoveryQuery task e q
           let plan := plannerExecute env.llm (recoveryInput task rq)
           match plan.payload with
           | some payload =>
             if plan.status = "success" ∧ payload.taskGraph.length > 0 then
               let sub := execLoop env f payload.taskGraph payload.taskGraph q []
               match sub.result with
               | .ok _ =>
                 let out := execLoop env f allTasks rest q (task.id :: completed)
                 ⟨out.result, task.id :: (sub.dispatched ++ out.dispatched),
                   rq :: (sub.recoveries ++ out.recoveries)⟩
               | .error .fuelOut =>
                 ⟨.error .fuelOut, task.id :: sub.dispatched, rq :: sub.recoveries⟩
               | .error (.err _) =>
                 ⟨.error (.err (taskFailedMsg task e)), task.id :: sub.dispatched,
                   rq :: sub.recoveries⟩
             else ⟨.error (.err (taskFailedMsg task e)), [task.id], [rq]⟩
           | none => ⟨.error (.err (taskFailedMsg task e)), [task.id], [rq]⟩) := rfl

/-- C2: for a task with a validation command, when the primary action
resolves successfully but the validation run reports a failed status or a
non-zero exit code, `executeSingleTask` throws the validation error — the
task fails exactly as a failed primary action does — and the supervisor
sends that failure into the recovery path (the planner is consulted with
the validation error's recovery query). -/
theorem validation_overrides_success (env : OrchEnv) (task : TaskNode) (q : String)
    (cmd : String) (vr : AgentResult)
    (hprim : primaryAction env task q = .ok ())
    (hvc : task.validationCommand = some cmd) (hne : cmd ≠ "")
    (hrun : env.executorRun cmd = .ok vr)
    (hfail : validationFails vr = true) :
    executeSingleTask env task q = .error (validationMsg task vr) ∧
    (∀ (f : Nat) (allTasks rest : List TaskNode) (completed : List String),
      pendingDeps task completed allTasks = [] →
      (execLoop env (f + 1) allTasks (task :: rest) q completed).recoveries.head? =
        some (mkRecoveryQuery task (validationMsg task vr) q)) := by
  have h1 : executeSingleTask env task q = .error (validationMsg task vr) := by
    unfold executeSingleTask
    rw [hprim]
    unfold runValidation
    rw [hvc]
    have ht : optTruthy (some cmd) = true := by
      simp [optTruthy, hne]
    rw [ht]
    simp only [if_true, Option.getD_some]
    rw [hrun]
    simp [hfail]
  refine ⟨h1, ?_⟩
  intro f allTasks rest completed hpd
  rw [execLoop_step]
  simp only [hpd, h1]
  simp only [ne_eq, not_true_eq_false, if_false]
  cases hpp : (plannerExecute env.llm
      (recoveryInput task (mkRecoveryQuery task (validationMsg task vr) q))).payload with
  | none => rfl
  | some payload =>
    by_cases hcond : (plannerExecute env.llm
        (recoveryInput task (mkRecoveryQuery task (validationMsg task vr) q))).status =
          "success" ∧ payload.taskGraph.length > 0
    · simp only [if_pos hcond]
      cases hsub : (execLoop env f payload.taskGraph payload.taskGraph q []).result with
      | ok u => rfl
      | error re => cases re with
        | err m => rfl
        | fuelOut => rfl
    · simp only [if_neg hcond]
      rfl

def tVal : TaskNode :=
  ⟨"A", "create out.txt", none, none, none, [], some "test -f out.txt", "pending", none, none⟩

/-- witness for C2 on the spec's scenario 3: the action resolves, the
validation command exits 1, the task is recorded failed and recovery is
consulted with the validation error. -/
theorem validation_overrides_success_witness :
    executeSingleTask (envOf llmNoSynth arExit1) tVal "make the file" =
      .error (validationMsg tVal arExit1) ∧
    (execLoop (envOf llmNoSynth arExit1) (0 + 1) [tVal] [tVal]
        "make the file" []).recoveries.head? =
      some (mkRecoveryQuery tVal (validationMsg tVal arExit1) "make the file") := by
  have h := validation_overrides_success (envOf llmNoSynth arExit1) tVal "make the file"
    "test -f out.txt" arExit1 (by decide) (by decide) (by decide) (by decide) (by decide)
  exact ⟨h.1, h.2 0 [tVal] [] [] (by decide)⟩

/-! ## Claim C1 -/

/-- C1: when a task's action or validation fails, the supervisor consults
the Recovery Planner exactly once for that failure (the run's recovery
trace gains the single query built from the failed task and its error).
If the planner succeeds with a non-empty sub-graph whose execution
succeeds, the run continues with the tasks after the failed one, the
failed task counting as completed, and the overall result is the
continuation's result.  If the planner yields no usable plan, or the
sub-graph's execution fails, the run fails with the message built by
`taskFailedMsg`, which names the original task id and wraps the
underlying error. -/
theorem supervisor_single_recovery
    (env : OrchEnv) (f : Nat) (allTasks : List TaskNode) (task : TaskNode)
    (rest : List TaskNode) (q : String) (completed : List String) (e : String)
    (hpd : pendingDeps task completed allTasks = [])
    (hfail : executeSingleTask env task q = .error e) :
    (taskFailedMsg task e =
      "Task " ++ task.id ++ " failed and recovery was unsuccessful: " ++ e) ∧
    (∀ payload : TaskPlannerResult,
      (plannerExecute env.llm (recoveryInput task (mkRecoveryQuery task e q))).status =
        "success" →
      (plannerExecute env.llm (recoveryInput task (mkRecoveryQuery task e q))).payload =
        some payload →
      payload.taskGraph.length > 0 →
      (execLoop env f payload.taskGraph payload.taskGraph q []).result = .ok () →
      execLoop env (f + 1) allTasks (task :: rest) q completed =
        ⟨(execLoop env f allTasks rest q (task.id :: completed)).result,
          task.id :: ((execLoop env f payload.taskGraph payload.taskGraph q []).dispatched ++
            (execLoop env f allTasks rest q (task.id :: completed)).dispatched),
          mkRecoveryQuery task e q ::
            ((execLoop env f payload.taskGraph payload.taskGraph q []).recoveries ++
              (execLoop env f allTasks rest q (task.id :: completed)).recoveries)⟩) ∧
    (¬((plannerExecute env.llm (recoveryInput task (mkRecoveryQuery task e q))).status =
          "success" ∧
        ∃ payload, (plannerExecute env.llm
            (recoveryInput task (mkRecoveryQuery task e q))).payload = some payload ∧
          payload.taskGraph.length > 0) →
      execLoop env (f + 1) allTasks (task :: rest) q completed =
        ⟨.error (.err (taskFailedMsg task e)), [task.id], [mkRecoveryQuery task e q]⟩) ∧
    (∀ (payload : TaskPlannerResult) (m : String),
      (plannerExecute env.llm (recoveryInput task (mkRecoveryQuery task e q))).status =
        "success" →
      (plannerExecute env.llm (recoveryInput task (mkRecoveryQuery task e q))).payload =
        some payload →
      payload.taskGraph.length > 0 →
      (execLoop env f payload.taskGraph payload.taskGraph q []).result = .error (.err m) →
      execLoop env (f + 1) allTasks (task :: rest) q completed =
        ⟨.error (.err (taskFailedMsg task e)),
          task.id :: (execLoop env f payload.taskGraph payload.taskGraph q []).dispatched,
          mkRecoveryQuery task e q ::
            (execLoop env f payload.taskGraph payload.taskGraph q []).recoveries⟩) := by
  refine ⟨rfl, ?_, ?_, ?_⟩
  · intro payload hst hpp hlen hsub
    rw [execLoop_step]
    simp only [hpd, hfail]
    simp only [ne_eq, not_true_eq_false, if_false]
    simp only [hpp]
    simp only [if_pos (And.intro hst hlen)]
    simp only [hsub]
  · intro hcond
    rw [execLoop_step]
    simp only [hpd, hfail]
    simp only [ne_eq, not_true_eq_false, if_false]
    cases hpp : (plannerExecute env.llm
        (recoveryInput task (mkRecoveryQuery task e q))).payload with
    | none => rfl
    | some payload =>
      have hno : ¬((plannerExecute env.llm
          (recoveryInput task (mkRecoveryQuery task e q))).status = "success" ∧
            payload.taskGraph.length > 0) := by
        intro ⟨hst, hlen⟩
        exact hcond ⟨hst, payload, hpp, hlen⟩
      simp only [if_neg hno]
  · intro payload m hst hpp hlen hsub
    rw [execLoop_step]
    simp only [hpd, hfail]
    simp only [ne_eq, not_true_eq_false, if_false]
    simp only [hpp]
    simp only [if_pos (And.intro hst hlen)]
    simp only [hsub]

def tFail : TaskNode :=
  ⟨"tX", "Deploy the artifact", none, none, none, [], some "fail once", "pending", none, none⟩

def envC1 : OrchEnv :=
  ⟨fun _ _ => .ok (), fun c => if c = "fail once" then .ok arExit1 else .ok arOk, llmNoSynth⟩

def eX : String := "Validation failed for task tX: Unknown error"

def payloadX : TaskPlannerResult :=
  ((plannerExecute llmNoSynth (recoveryInput tFail (mkRecoveryQuery tFail eX "ship it"))).payload).getD
    ⟨[], [], [], []⟩

def t3def : TaskNode :=
  ⟨"task_003", "Verify & Validate", none, none, none, ["task_002"], some "npm test",
    "pending", none, none⟩

def envFailRec : OrchEnv := ⟨fun _ _ => .ok (), fun _ => .ok arExit1, llmSynthBA⟩

def e3 : String := "Validation failed for task task_003: Unknown error"

def payload3 : TaskPlannerResult :=
  ((plannerExecute llmSynthBA (recoveryInput t3def (mkRecoveryQuery t3def e3 "polish docs"))).payload).getD
    ⟨[], [], [], []⟩

def mBA : String := "Task t_b (write b) cannot start because dependencies t_a are not complete."

/-- witness for C1: one run where the recovery sub-graph succeeds and the
run continues, and one where the recovered sub-graph itself fails and the
run ends with the original task id wrapped around the first error. -/
theorem supervisor_single_recovery_witness :
    (execLoop envC1 (9 + 1) [tFail] [tFail] "ship it" [] =
      ⟨(execLoop envC1 9 [tFail] [] "ship it" [tFail.id]).result,
        tFail.id :: ((execLoop envC1 9 payloadX.taskGraph payloadX.taskGraph "ship it" []).dispatched ++
          (execLoop envC1 9 [tFail] [] "ship it" [tFail.id]).dispatched),
        mkRecoveryQuery tFail eX "ship it" ::
          ((execLoop envC1 9 payloadX.taskGraph payloadX.taskGraph "ship it" []).recoveries ++
            (execLoop envC1 9 [tFail] [] "ship it" [tFail.id]).recoveries)⟩) ∧
    (execLoop envFailRec (5 + 1) [t3def] [t3def] "polish docs" [] =
      ⟨.error (.err (taskFailedMsg t3def e3)),
        t3def.id :: (execLoop envFailRec 5 payload3.taskGraph payload3.taskGraph
          "polish docs" []).dispatched,
        mkRecoveryQuery t3def e3 "polish docs" ::
          (execLoop envFailRec 5 payload3.taskGraph payload3.taskGraph
            "polish docs" []).recoveries⟩) := by
  constructor
  · exact (supervisor_single_recovery envC1 9 [tFail] tFail [] "ship it" [] eX
      (by decide) (by decide)).2.1 payloadX (by decide) (by decide) (by decide) (by decide)
  · exact (supervisor_single_recovery envFailRec 5 [t3def] t3def [] "polish docs" [] e3
      (by decide) (by decide)).2.2.2 payload3 mBA (by decide) (by decide) (by decide) (by decide)

/-! ## Claim C7 -/

/-- C7 counterexample: the planner returns a graph whose raw array order
is `[t_b, t_a]` while the sequencer's execution order is `[t_a, t_b]`.
`executeRequest` hands the raw `taskGraph` array to the supervisor, which
immediately aborts on the dependency check before dispatching anything —
the dispatch sequence is empty, not the sequencer's order. -/
theorem supervisor_order_counterexample :
    ((plannerExecute llmSynthBA inputDocs).payload.map (fun p => p.executionOrder)) =
      some ["t_a", "t_b"] ∧
    ((plannerExecute llmSynthBA inputDocs).payload.map (fun p => taskIds p.taskGraph)) =
      some ["t_b", "t_a"] ∧
    (executeRequest (envOf llmSynthBA arOk) 10 "polish docs" "generic" [] none).2.dispatched =
      [] ∧
    (executeRequest (envOf llmSynthBA arOk) 10 "polish docs" "generic" [] none).1 =
      some "Execution failed: Task t_b (write b) cannot start because dependencies t_a are not complete." ∧
    (executeRequest (envOf llmSynthBA arOk) 10 "polish docs" "generic" [] none).2.dispatched ≠
      ["t_a", "t_b"] := by
  refine ⟨by decide, by decide, by decide, by decide, by decide⟩

theorem execLoop_all_ok (env : OrchEnv) (q : String) :
    ∀ (rem : List TaskNode) (allTasks : List TaskNode) (fuel : Nat) (completed : List String),
      (∀ t ∈ rem, executeSingleTask env t q = .ok ()) →
      (∀ (pre : List TaskNode) (t : TaskNode) (post : List TaskNode),
        rem = pre ++ t :: post → ∀ d ∈ t.dependencies,
        (jsMapGet allTasks d).isSome = true → d ∈ taskIds pre ∨ d ∈ completed) →
      fuel ≥ rem.length →
      execLoop env fuel allTasks rem q completed = ⟨.ok (), taskIds rem, []⟩ := by
  intro rem
  induction rem with
  | nil =>
    intro allTasks fuel completed _ _ _
    cases fuel <;> rfl
  | cons task rest ih =>
    intro allTasks fuel completed hok hdeps hfuel
    cases fuel with
    | zero => simp at hfuel
    | succ f =>
      rw [execLoop_step]
      have hpd : pendingDeps task completed allTasks = [] := by
        unfold pendingDeps
        rw [List.filter_eq_nil_iff]
        intro d hd hP
        rw [Bool.and_eq_true] at hP
        obtain ⟨h1, h2⟩ := hP
        rcases hdeps [] task rest rfl d hd h2 with hpre | hcomp
        · cases hpre
        · simp at h1
          exact h1 hcomp
      simp only [hpd, hok task (List.mem_cons_self _ _)]
      simp only [ne_eq, not_true_eq_false, if_false]
      have hrest : execLoop env f allTasks rest q (task.id :: completed) =
          ⟨.ok (), taskIds rest, []⟩ := by
        refine ih allTasks f (task.id :: completed)
          (fun t ht => hok t (List.mem_cons_of_mem _ ht)) ?_ ?_
        · intro pre t post heq d hd hsome
          rcases hdeps (task :: pre) t post (by rw [heq]; rfl) d hd hsome with hpre | hcomp
          · rcases List.mem_cons.1 hpre with hh | hh
            · exact .inr (List.mem_cons.2 (.inl hh))
            · exact .inl hh
          · exact .inr (List.mem_cons_of_mem _ hcomp)
        · have := hfuel
          simp only [List.length_cons] at this
          omega
      rw [hrest]
      rfl

/-- C7 amended: `executeRequest` passes the planner's raw `taskGraph`
array to the supervisor, which iterates it in array order: on a run where
every task succeeds and each task's in-graph dependencies appear earlier
in the array, the dispatch sequence is exactly the array's id sequence
(the sequencer's `executionOrder` is never consulted; the counterexample
shows the two orders diverging). -/
theorem supervisor_dispatches_raw_order (env : OrchEnv) (q : String)
    (tasks : List TaskNode) (fuel : Nat)
    (hok : ∀ t ∈ tasks, executeSingleTask env t q = .ok ())
    (hdeps : ∀ (pre : List TaskNode) (t : TaskNode) (post : List TaskNode),
      tasks = pre ++ t :: post → ∀ d ∈ t.dependencies,
      (jsMapGet tasks d).isSome = true → d ∈ taskIds pre)
    (hfuel : fuel ≥ tasks.length) :
    executeTaskGraph env fuel tasks q = ⟨.ok (), taskIds tasks, []⟩ := by
  unfold executeTaskGraph
  refine execLoop_all_ok env q tasks tasks fuel [] hok ?_ hfuel
  intro pre t post heq d hd hsome
  exact .inl (hdeps pre t post heq d hd hsome)

def tA7 : TaskNode := ⟨"a7", "first", none, none, none, [], none, "pending", none, none⟩

def tB7 : TaskNode := ⟨"b7", "second", none, none, none, ["a7"], none, "pending", none, none⟩

/-- witness for the amended C7 on a two-task graph in array order. -/
theorem supervisor_dispatches_raw_order_witness :
    executeTaskGraph (envOf llmNoSynth arOk) 2 [tA7, tB7] "do both" =
      ⟨.ok (), taskIds [tA7, tB7], []⟩ := by
  refine supervisor_dispatches_raw_order (envOf llmNoSynth arOk) "do both" [tA7, tB7] 2
    (by decide) ?_ (by decide)
  intro pre t post heq d hd hsome
  cases pre with
  | nil =>
    have h1 : tA7 = t := by injection heq
    rw [← h1] at hd
    cases hd
  | cons p ps =>
    have h1 : tA7 = p := by injection heq
    have h2 : [tB7] = ps ++ t :: post := by injection heq with _ h2
    cases ps with
    | nil =>
      have h3 : tB7 = t := by injection h2
      rw [← h3] at hd
      rcases List.mem_cons.1 hd with hh | hh
      · subst hh
        rw [← h1]
        simp [taskIds, tA7]
      · cases hh
    | cons p2 ps2 =>
      have h4 : ([] : List TaskNode) = ps2 ++ t :: post := by injection h2 with _ h4
      cases ps2 with
      | nil => cases h4
      | cons _ _ => cases h4

/-! ## Proof development: the critical-path dynamic program (claim C8) -/

def cpStep (tasks : List TaskNode) (dp : (String → Nat) × (String → Option String))
    (id : String) : (String → Nat) × (String → Option String) :=
  match jsMapGet tasks id with
  | none => dp
  | some task => cpRelax id task.dependencies dp

theorem cpDP_eq_foldl (tasks : List TaskNode) (order : List String) :
    cpDP tasks order = order.foldl (cpStep tasks) (fun _ => 0, fun _ => none) := rfl


theorem cpRelax_cons (id d : String) (ds : List String)
    (dp : (String → Nat) × (String → Option String)) :
    cpRelax id (d :: ds) dp =
      cpRelax id ds (if dp.1 d + 1 > dp.1 id then
        (updF dp.1 id (dp.1 d + 1), updP dp.2 id d) else dp) := rfl

theorem cpRelax_other (id : String) :
    ∀ (deps : List String) (dp : (String → Nat) × (String → Option String)) (x : String),
      x ≠ id →
      (cpRelax id deps dp).1 x = dp.1 x ∧ (cpRelax id deps dp).2 x = dp.2 x := by
  intro deps
  induction deps with
  | nil => intro dp x _; exact ⟨rfl, rfl⟩
  | cons d ds ih =>
    intro dp x hx
    rw [cpRelax_cons]
    by_cases hgt : dp.1 d + 1 > dp.1 id
    · rw [if_pos hgt]
      have h := ih (updF dp.1 id (dp.1 d + 1), updP dp.2 id d) x hx
      refine ⟨h.1.trans ?_, h.2.trans ?_⟩
      · simp [updF, hx]
      · simp [updP, hx]
    · rw [if_neg hgt]
      exact ih dp x hx

theorem foldl_max_congr (g1 g2 : String → Nat) :
    ∀ (l : List String) (a : Nat), (∀ d ∈ l, g1 d = g2 d) →
      l.foldl (fun m d => max m (g1 d + 1)) a = l.foldl (fun m d => max m (g2 d + 1)) a := by
  intro l
  induction l with
  | nil => intro a _; rfl
  | cons d ds ih =>
    intro a h
    rw [List.foldl_cons, List.foldl_cons, h d (List.mem_cons_self _ _)]
    exact ih _ (fun x hx => h x (List.mem_cons_of_mem _ hx))

theorem cpRelax_at (id : String) :
    ∀ (deps : List String) (dp : (String → Nat) × (String → Option String)),
      (∀ d ∈ deps, d ≠ id) →
      (cpRelax id deps dp).1 id =
        deps.foldl (fun m d => max m (dp.1 d + 1)) (dp.1 id) ∧
      (((cpRelax id deps dp).2 id = dp.2 id ∧ (cpRelax id deps dp).1 id = dp.1 id) ∨
        ∃ p, p ∈ deps ∧ (cpRelax id deps dp).2 id = some p ∧
          (cpRelax id deps dp).1 id = dp.1 p + 1) := by
  intro deps
  induction deps with
  | nil => intro dp _; exact ⟨rfl, .inl ⟨rfl, rfl⟩⟩
  | cons d ds ih =>
    intro dp hne
    have hne' : ∀ x ∈ ds, x ≠ id := fun x hx => hne x (List.mem_cons_of_mem _ hx)
    rw [cpRelax_cons, List.foldl_cons]
    by_cases hgt : dp.1 d + 1 > dp.1 id
    · rw [if_pos hgt]
      set dp1 : (String → Nat) × (String → Option String) :=
        (updF dp.1 id (dp.1 d + 1), updP dp.2 id d) with hdp1
      have hother : ∀ x, x ≠ id → dp1.1 x = dp.1 x := by
        intro x hx
        simp [hdp1, updF, hx]
      have hat1 : dp1.1 id = dp.1 d + 1 := by simp [hdp1, updF]
      have hat2 : dp1.2 id = some d := by simp [hdp1, updP]
      obtain ⟨hv, hp⟩ := ih dp1 hne'
      have hmax : max (dp.1 id) (dp.1 d + 1) = dp.1 d + 1 := by omega
      constructor
      · rw [hv, hat1, hmax]
        exact foldl_max_congr dp1.1 dp.1 ds (dp.1 d + 1) (fun x hx => hother x (hne' x hx))
      · rcases hp with ⟨hpe, hve⟩ | ⟨p, hpm, hpe, hve⟩
        · right
          exact ⟨d, List.mem_cons_self _ _, hpe.trans hat2, hve.trans hat1⟩
        · right
          refine ⟨p, List.mem_cons_of_mem _ hpm, hpe, hve.trans ?_⟩
          rw [hother p (hne' p hpm)]
    · rw [if_neg hgt]
      obtain ⟨hv, hp⟩ := ih dp hne'
      have hmax : max (dp.1 id) (dp.1 d + 1) = dp.1 id := by omega
      constructor
      · rw [hv, hmax]
      · rcases hp with ⟨hpe, hve⟩ | ⟨p, hpm, hpe, hve⟩
        · exact .inl ⟨hpe, hve⟩
        · exact .inr ⟨p, List.mem_cons_of_mem _ hpm, hpe, hve⟩

theorem idxOf'_eq_length_of_not_mem {a : String} {l : List String} (h : a ∉ l) :
    idxOf' a l = l.length := by
  induction l with
  | nil => rfl
  | cons x xs ih =>
    have hx : x ≠ a := fun hc => h (hc ▸ List.mem_cons_self x xs)
    simp only [idxOf', if_neg hx, List.length_cons]
    rw [ih (fun hc => h (List.mem_cons_of_mem x hc))]

theorem mem_split_idx {a : String} {l : List String} (h : a ∈ l) :
    ∃ l1 l2, l = l1 ++ a :: l2 ∧ idxOf' a l = l1.length := by
  induction l with
  | nil => cases h
  | cons x xs ih =>
    by_cases hx : x = a
    · subst hx
      exact ⟨[], xs, rfl, by simp [idxOf']⟩
    · rcases List.mem_cons.1 h with hh | hh
      · exact absurd hh.symm hx
      · obtain ⟨l1, l2, heq, hidx⟩ := ih hh
        refine ⟨x :: l1, l2, by rw [heq]; rfl, ?_⟩
        simp only [idxOf', if_neg hx, List.length_cons]
        rw [hidx]

theorem cpStep_other (tasks : List TaskNode) :
    ∀ (l : List String) (dp : (String → Nat) × (String → Option String)) (x : String),
      x ∉ l →
      (l.foldl (cpStep tasks) dp).1 x = dp.1 x ∧
      (l.foldl (cpStep tasks) dp).2 x = dp.2 x := by
  intro l
  induction l with
  | nil => intro dp x _; exact ⟨rfl, rfl⟩
  | cons y ys ih =>
    intro dp x hx
    have hxy : x ≠ y := fun hc => hx (hc ▸ List.mem_cons_self y ys)
    have hxs : x ∉ ys := fun hc => hx (List.mem_cons_of_mem y hc)
    rw [List.foldl_cons]
    have hstep : (cpStep tasks dp y).1 x = dp.1 x ∧ (cpStep tasks dp y).2 x = dp.2 x := by
      unfold cpStep
      cases jsMapGet tasks y with
      | none => exact ⟨rfl, rfl⟩
      | some t => exact cpRelax_other y t.dependencies dp x hxy
    obtain ⟨h1, h2⟩ := ih (cpStep tasks dp y) x hxs
    exact ⟨h1.trans hstep.1, h2.trans hstep.2⟩

theorem cpStep_no_task (tasks : List TaskNode) {x : String} (hmap : jsMapGet tasks x = none) :
    ∀ (l : List String) (dp : (String → Nat) × (String → Option String)),
      (l.foldl (cpStep tasks) dp).1 x = dp.1 x ∧
      (l.foldl (cpStep tasks) dp).2 x = dp.2 x := by
  intro l
  induction l with
  | nil => intro dp; exact ⟨rfl, rfl⟩
  | cons y ys ih =>
    intro dp
    rw [List.foldl_cons]
    have hstep : (cpStep tasks dp y).1 x = dp.1 x ∧ (cpStep tasks dp y).2 x = dp.2 x := by
      unfold cpStep
      by_cases hxy : x = y
      · subst hxy
        rw [hmap]
        exact ⟨rfl, rfl⟩
      · cases jsMapGet tasks y with
        | none => exact ⟨rfl, rfl⟩
        | some t => exact cpRelax_other y t.dependencies dp x hxy
    obtain ⟨h1, h2⟩ := ih (cpStep tasks dp y)
    exact ⟨h1.trans hstep.1, h2.trans hstep.2⟩

/-- ids with no task in the map, or absent from the order, keep the
initial distance 0 and no predecessor. -/
theorem cpDP_zero (tasks : List TaskNode) (order : List String) (x : String)
    (h : jsMapGet tasks x = none ∨ x ∉ order) :
    (cpDP tasks order).1 x = 0 ∧ (cpDP tasks order).2 x = none := by
  rw [cpDP_eq_foldl]
  rcases h with h | h
  · exact cpStep_no_task tasks h order _
  · exact cpStep_other tasks order _ x h

theorem idxOf'_append_right {a : String} {l r : List String} (h : a ∉ l) :
    idxOf' a (l ++ r) = l.length + idxOf' a r := by
  induction l with
  | nil => simp [idxOf']
  | cons x xs ih =>
    have hx : x ≠ a := fun hc => h (hc ▸ List.mem_cons_self x xs)
    simp only [List.cons_append, idxOf', if_neg hx, List.length_cons]
    have hih : idxOf' a (xs.append r) = xs.length + idxOf' a r :=
      ih (fun hc => h (List.mem_cons_of_mem x hc))
    omega

/-- final distance and predecessor of a task id under a
dependency-consistent, duplicate-free order: the distance satisfies the
longest-path recurrence over the task's dependencies and the predecessor
witnesses it. -/
theorem cpDP_char (tasks : List TaskNode) (order : List String)
    (hnd : order.Nodup) {id : String} {t : TaskNode}
    (hmap : jsMapGet tasks id = some t)
    (hidm : id ∈ order)
    (hdeps : ∀ d ∈ t.dependencies, idxOf' d order < idxOf' id order) :
    (cpDP tasks order).1 id =
      t.dependencies.foldl (fun m d => max m ((cpDP tasks order).1 d + 1)) 0 ∧
    (((cpDP tasks order).2 id = none ∧ (cpDP tasks order).1 id = 0) ∨
      ∃ p, p ∈ t.dependencies ∧ (cpDP tasks order).2 id = some p ∧
        (cpDP tasks order).1 id = (cpDP tasks order).1 p + 1) := by
  obtain ⟨l1, l2, heq, hidx⟩ := mem_split_idx hidm
  have hnd' : (l1 ++ id :: l2).Nodup := heq ▸ hnd
  rw [List.nodup_append] at hnd'
  obtain ⟨hnd1, hnd2, hdisj⟩ := hnd'
  have hid_l1 : id ∉ l1 := fun hc => hdisj hc (List.mem_cons_self _ _)
  have hid_l2 : id ∉ l2 := (List.nodup_cons.1 hnd2).1
  have hne : ∀ d ∈ t.dependencies, d ≠ id := by
    intro d hd hc
    subst hc
    exact Nat.lt_irrefl _ (hdeps d hd)
  have hd_l1 : ∀ d ∈ t.dependencies, d ∈ l1 := by
    intro d hd
    by_contra hdc
    have h1 : idxOf' d order = l1.length + idxOf' d (id :: l2) := by
      rw [heq]
      exact idxOf'_append_right hdc
    have h2 := hdeps d hd
    rw [hidx] at h2
    omega
  have hd_not_l2 : ∀ d ∈ t.dependencies, d ∉ l2 := by
    intro d hd hc
    exact hdisj (hd_l1 d hd) (List.mem_cons_of_mem _ hc)
  set init : (String → Nat) × (String → Option String) := (fun _ => 0, fun _ => none)
  set dpPre := l1.foldl (cpStep tasks) init with hdpPre
  have hsplit : cpDP tasks order = l2.foldl (cpStep tasks) (cpStep tasks dpPre id) := by
    rw [cpDP_eq_foldl, heq, List.foldl_append, List.foldl_cons]
  have hpre_id : dpPre.1 id = 0 ∧ dpPre.2 id = none := by
    obtain ⟨h1, h2⟩ := cpStep_other tasks l1 init id hid_l1
    exact ⟨h1, h2⟩
  have hfin_id : (cpDP tasks order).1 id = (cpStep tasks dpPre id).1 id ∧
      (cpDP tasks order).2 id = (cpStep tasks dpPre id).2 id := by
    rw [hsplit]
    exact cpStep_other tasks l2 _ id hid_l2
  have hstep_id : cpStep tasks dpPre id = cpRelax id t.dependencies dpPre := by
    unfold cpStep
    rw [hmap]
  have hfin_d : ∀ d ∈ t.dependencies, (cpDP tasks order).1 d = dpPre.1 d := by
    intro d hd
    have h1 : (cpDP tasks order).1 d = (cpStep tasks dpPre id).1 d := by
      rw [hsplit]
      exact (cpStep_other tasks l2 _ d (hd_not_l2 d hd)).1
    rw [h1, hstep_id]
    exact (cpRelax_other id t.dependencies dpPre d (hne d hd)).1
  obtain ⟨hval, hpred⟩ := cpRelax_at id t.dependencies dpPre hne
  constructor
  · rw [hfin_id.1, hstep_id, hval, hpre_id.1]
    exact (foldl_max_congr dpPre.1 (cpDP tasks order).1 t.dependencies 0
      (fun d hd => (hfin_d d hd).symm)).symm ▸ rfl
  · rcases hpred with ⟨hpe, hve⟩ | ⟨p, hpm, hpe, hve⟩
    · left
      refine ⟨?_, ?_⟩
      · rw [hfin_id.2, hstep_id, hpe, hpre_id.2]
      · rw [hfin_id.1, hstep_id, hve, hpre_id.1]
    · right
      refine ⟨p, hpm, ?_, ?_⟩
      · rw [hfin_id.2, hstep_id, hpe]
      · rw [hfin_id.1, hstep_id, hve, hfin_d p hpm]

theorem dedupFirstGo_mem :
    ∀ (l seen : List String) (y : String),
      y ∈ dedupFirstGo l seen ↔ y ∈ l ∧ y ∉ seen := by
  intro l
  induction l with
  | nil => intro seen y; simp [dedupFirstGo]
  | cons x xs ih =>
    intro seen y
    by_cases hx : x ∈ seen
    · rw [show dedupFirstGo (x :: xs) seen = dedupFirstGo xs seen from by
        simp only [dedupFirstGo]; rw [if_pos hx]]
      rw [ih seen y]
      constructor
      · exact fun ⟨h1, h2⟩ => ⟨List.mem_cons_of_mem _ h1, h2⟩
      · rintro ⟨h1, h2⟩
        rcases List.mem_cons.1 h1 with hh | hh
        · exact absurd (hh ▸ hx) h2
        · exact ⟨hh, h2⟩
    · rw [show dedupFirstGo (x :: xs) seen = x :: dedupFirstGo xs (x :: seen) from by
        simp only [dedupFirstGo]; rw [if_neg hx]]
      constructor
      · intro hy
        rcases List.mem_cons.1 hy with hh | hh
        · exact ⟨hh ▸ List.mem_cons_self _ _, hh ▸ hx⟩
        · obtain ⟨h1, h2⟩ := (ih (x :: seen) y).1 hh
          exact ⟨List.mem_cons_of_mem _ h1, fun hc => h2 (List.mem_cons_of_mem _ hc)⟩
      · rintro ⟨h1, h2⟩
        rcases List.mem_cons.1 h1 with hh | hh
        · exact hh ▸ List.mem_cons_self _ _
        · by_cases hyx : y = x
          · exact hyx ▸ List.mem_cons_self _ _
          · refine List.mem_cons_of_mem _ ((ih (x :: seen) y).2 ⟨hh, ?_⟩)
            intro hc
            rcases List.mem_cons.1 hc with hcc | hcc
            · exact hyx hcc
            · exact h2 hcc

theorem dedupFirst_mem (l : List String) (y : String) : y ∈ dedupFirst l ↔ y ∈ l := by
  unfold dedupFirst
  rw [dedupFirstGo_mem]
  simp

theorem cpMax_go (dist : String → Nat) :
    ∀ (keys : List String) (acc : Nat × String),
      (keys.foldl (fun acc id => if dist id > acc.1 then (dist id, id) else acc) acc = acc ∨
        ((keys.foldl (fun acc id => if dist id > acc.1 then (dist id, id) else acc) acc).2 ∈
            keys ∧
          dist (keys.foldl (fun acc id => if dist id > acc.1 then (dist id, id) else acc)
            acc).2 =
          (keys.foldl (fun acc id => if dist id > acc.1 then (dist id, id) else acc) acc).1)) ∧
      acc.1 ≤ (keys.foldl (fun acc id => if dist id > acc.1 then (dist id, id) else acc) acc).1 ∧
      (∀ k ∈ keys,
        dist k ≤ (keys.foldl (fun acc id => if dist id > acc.1 then (dist id, id) else acc)
          acc).1) := by
  intro keys
  induction keys with
  | nil => intro acc; exact ⟨.inl rfl, Nat.le_refl _, by simp⟩
  | cons x xs ih =>
    intro acc
    rw [List.foldl_cons]
    by_cases hx : dist x > acc.1
    · rw [if_pos hx]
      obtain ⟨hform, hle, hall⟩ := ih (dist x, x)
      refine ⟨?_, ?_, ?_⟩
      · rcases hform with hform | ⟨hm, hd⟩
        · right
          rw [hform]
          exact ⟨List.mem_cons_self _ _, rfl⟩
        · exact .inr ⟨List.mem_cons_of_mem _ hm, hd⟩
      · exact le_trans (Nat.le_of_lt hx) hle
      · intro k hk
        rcases List.mem_cons.1 hk with hh | hh
        · exact hh ▸ hle
        · exact hall k hh
    · rw [if_neg hx]
      obtain ⟨hform, hle, hall⟩ := ih acc
      refine ⟨?_, hle, ?_⟩
      · rcases hform with hform | ⟨hm, hd⟩
        · exact .inl hform
        · exact .inr ⟨List.mem_cons_of_mem _ hm, hd⟩
      · intro k hk
        rcases List.mem_cons.1 hk with hh | hh
        · subst hh
          exact le_trans (Nat.le_of_not_lt hx) hle
        · exact hall k hh

theorem cpBuild_len (pred : String → Option String) (dist : String → Nat)
    (hok : ∀ x, (pred x = none → dist x = 0) ∧
      ∀ p, pred x = some p → dist x = dist p + 1) :
    ∀ (fuel : Nat) (cur : String) (acc : List String),
      dist cur < fuel →
      (cpBuild pred fuel cur acc).length = dist cur + 1 + acc.length := by
  intro fuel
  induction fuel with
  | zero => intro cur acc h; omega
  | succ f ih =>
    intro cur acc h
    show (match pred cur with
      | none => cur :: acc
      | some p => cpBuild pred f p (cur :: acc)).length = _
    cases hp : pred cur with
    | none =>
      have h0 : dist cur = 0 := (hok cur).1 hp
      simp only [List.length_cons, h0]
      omega
    | some p =>
      have h1 : dist cur = dist p + 1 := (hok cur).2 p hp
      have h2 : dist p < f := by omega
      rw [ih p (cur :: acc) h2]
      simp only [List.length_cons]
      omega

theorem foldl_max_from (g : String → Nat) :
    ∀ (l : List String) (a : Nat),
      l.foldl (fun m d => max m (g d + 1)) a =
        max a ((l.map (fun d => g d + 1)).foldr max 0) := by
  intro l
  induction l with
  | nil => intro a; simp
  | cons d ds ih =>
    intro a
    rw [List.foldl_cons, ih, List.map_cons, List.foldr_cons]
    omega

theorem foldr_max_succ (g : String → Nat) :
    ∀ (l : List String), l ≠ [] →
      (l.map (fun d => g d + 1)).foldr max 0 = (l.map g).foldr max 0 + 1 := by
  intro l
  induction l with
  | nil => intro h; exact absurd rfl h
  | cons d ds ih =>
    intro _
    cases ds with
    | nil => simp
    | cons e es =>
      have hih := ih (by simp)
      calc ((d :: e :: es).map (fun x => g x + 1)).foldr max 0
          = max (g d + 1) (((e :: es).map (fun x => g x + 1)).foldr max 0) := rfl
        _ = max (g d + 1) (((e :: es).map g).foldr max 0 + 1) := by rw [hih]
        _ = max (g d) (((e :: es).map g).foldr max 0) + 1 := by omega
        _ = ((d :: e :: es).map g).foldr max 0 + 1 := rfl

theorem foldr_max_le (g : String → Nat) (B : Nat) :
    ∀ (l : List String), (∀ x ∈ l, g x ≤ B) → (l.map g).foldr max 0 ≤ B := by
  intro l
  induction l with
  | nil => intro _; simp
  | cons d ds ih =>
    intro h
    rw [List.map_cons, List.foldr_cons]
    have h1 := h d (List.mem_cons_self _ _)
    have h2 := ih (fun x hx => h x (List.mem_cons_of_mem _ hx))
    omega

theorem le_foldr_max (g : String → Nat) :
    ∀ (l : List String) (x : String), x ∈ l → g x ≤ (l.map g).foldr max 0 := by
  intro l
  induction l with
  | nil => intro x h; cases h
  | cons d ds ih =>
    intro x h
    rw [List.map_cons, List.foldr_cons]
    rcases List.mem_cons.1 h with hh | hh
    · subst hh
      omega
    · have := ih x hh
      omega

theorem foldl_max_le_of (g : String → Nat) (B : Nat) :
    ∀ (l : List String) (a : Nat), a ≤ B → (∀ d ∈ l, g d + 1 ≤ B) →
      l.foldl (fun m d => max m (g d + 1)) a ≤ B := by
  intro l
  induction l with
  | nil => intro a h _; exact h
  | cons d ds ih =>
    intro a ha h
    rw [List.foldl_cons]
    refine ih _ ?_ (fun x hx => h x (List.mem_cons_of_mem _ hx))
    have := h d (List.mem_cons_self _ _)
    omega

theorem jsMapGet_none_of_not_mem {tasks : List TaskNode} {id : String}
    (h : id ∉ taskIds tasks) : jsMapGet tasks id = none :=
  jsMapGet_stable tasks none h

theorem cpDP_predOK (tasks : List TaskNode) (order : List String)
    (hond : order.Nodup)
    (homem : ∀ t ∈ tasks, t.id ∈ order)
    (hovalid : ∀ t ∈ tasks, ∀ d ∈ t.dependencies,
      idxOf' d order < idxOf' t.id order) :
    ∀ x, ((cpDP tasks order).2 x = none → (cpDP tasks order).1 x = 0) ∧
      ∀ p, (cpDP tasks order).2 x = some p →
        (cpDP tasks order).1 x = (cpDP tasks order).1 p + 1 := by
  intro x
  cases hm : jsMapGet tasks x with
  | none =>
    obtain ⟨h1, h2⟩ := cpDP_zero tasks order x (.inl hm)
    exact ⟨fun _ => h1, fun p hp => absurd (h2 ▸ hp) (by simp)⟩
  | some t =>
    obtain ⟨htm, hti⟩ := jsMapGet_mem hm
    have hxo : x ∈ order := hti ▸ homem t htm
    have hdeps : ∀ d ∈ t.dependencies, idxOf' d order < idxOf' x order := by
      intro d hd
      exact hti ▸ hovalid t htm d hd
    obtain ⟨_, hdisj⟩ := cpDP_char tasks order hond hm hxo hdeps
    rcases hdisj with ⟨hpn, hd0⟩ | ⟨p, _, hps, hpv⟩
    · refine ⟨fun _ => hd0, fun p hp => ?_⟩
      rw [hpn] at hp
      cases hp
    · refine ⟨fun hn => ?_, fun p' hp' => ?_⟩
      · rw [hps] at hn
        cases hn
      · rw [hps] at hp'
        cases hp'
        exact hpv

theorem cpDP_le_idx (tasks : List TaskNode) (order : List String)
    (hond : order.Nodup)
    (homem : ∀ t ∈ tasks, t.id ∈ order)
    (hovalid : ∀ t ∈ tasks, ∀ d ∈ t.dependencies,
      idxOf' d order < idxOf' t.id order) :
    ∀ x, (cpDP tasks order).1 x ≤ idxOf' x order := by
  have main : ∀ n x, idxOf' x order = n → (cpDP tasks order).1 x ≤ n := by
    intro n
    induction n using Nat.strong_induction_on with
    | _ n ih =>
      intro x hxn
      cases hm : jsMapGet tasks x with
      | none =>
        rw [(cpDP_zero tasks order x (.inl hm)).1]
        omega
      | some t =>
        obtain ⟨htm, hti⟩ := jsMapGet_mem hm
        have hxo : x ∈ order := hti ▸ homem t htm
        have hdeps : ∀ d ∈ t.dependencies, idxOf' d order < idxOf' x order := by
          intro d hd
          exact hti ▸ hovalid t htm d hd
        obtain ⟨hchar, _⟩ := cpDP_char tasks order hond hm hxo hdeps
        rw [hchar]
        refine foldl_max_le_of (cpDP tasks order).1 n t.dependencies 0 (Nat.zero_le _) ?_
        intro d hd
        have hlt : idxOf' d order < n := hxn ▸ hdeps d hd
        have := ih (idxOf' d order) hlt d rfl
        omega
  exact fun x => main (idxOf' x order) x rfl

theorem cpDP_card_bound (tasks : List TaskNode) (order : List String)
    (hond : order.Nodup)
    (hclosed : ∀ t ∈ tasks, ∀ d ∈ t.dependencies, d ∈ taskIds tasks)
    (homem : ∀ t ∈ tasks, t.id ∈ order)
    (hovalid : ∀ t ∈ tasks, ∀ d ∈ t.dependencies,
      idxOf' d order < idxOf' t.id order) :
    ∀ x, (cpDP tasks order).1 x ≤
      ((taskIds tasks).toFinset.filter
        (fun y => idxOf' y order < idxOf' x order)).card := by
  have main : ∀ n x, idxOf' x order = n → (cpDP tasks order).1 x ≤
      ((taskIds tasks).toFinset.filter
        (fun y => idxOf' y order < idxOf' x order)).card := by
    intro n
    induction n using Nat.strong_induction_on with
    | _ n ih =>
      intro x hxn
      cases hm : jsMapGet tasks x with
      | none =>
        rw [(cpDP_zero tasks order x (.inl hm)).1]
        omega
      | some t =>
        obtain ⟨htm, hti⟩ := jsMapGet_mem hm
        have hxo : x ∈ order := hti ▸ homem t htm
        have hdeps : ∀ d ∈ t.dependencies, idxOf' d order < idxOf' x order := by
          intro d hd
          exact hti ▸ hovalid t htm d hd
        obtain ⟨hchar, _⟩ := cpDP_char tasks order hond hm hxo hdeps
        rw [hchar]
        refine foldl_max_le_of (cpDP tasks order).1 _ t.dependencies 0 (Nat.zero_le _) ?_
        intro d hd
        have hdS : d ∈ (taskIds tasks).toFinset.filter
            (fun y => idxOf' y order < idxOf' x order) := by
          rw [Finset.mem_filter, List.mem_toFinset]
          exact ⟨hclosed t htm d hd, hdeps d hd⟩
        have hsub : insert d ((taskIds tasks).toFinset.filter
            (fun y => idxOf' y order < idxOf' d order)) ⊆
            (taskIds tasks).toFinset.filter
              (fun y => idxOf' y order < idxOf' x order) := by
          intro y hy
          rcases Finset.mem_insert.1 hy with hy | hy
          · exact hy ▸ hdS
          · rw [Finset.mem_filter] at hy ⊢
            exact ⟨hy.1, Nat.lt_trans hy.2 (hdeps d hd)⟩
        have hdnotS : d ∉ (taskIds tasks).toFinset.filter
            (fun y => idxOf' y order < idxOf' d order) := by
          rw [Finset.mem_filter]
          rintro ⟨_, hlt⟩
          exact Nat.lt_irrefl _ hlt
        have hcard := Finset.card_le_card hsub
        rw [Finset.card_insert_of_not_mem hdnotS] at hcard
        have hih := ih (idxOf' d order) (hxn ▸ hdeps d hd) d rfl
        omega
  exact fun x => main (idxOf' x order) x rfl

/-- C8: on every non-empty graph with unique ids, dependencies closed over the
graph, and a duplicate-free dependency-consistent execution order covering all
tasks, the Critical Path Analyzer (`identifyCriticalPath`, a total function:
it never raises): (a) computes depths satisfying the spec recurrence — 0 for a
node without dependencies, 1 + max over the dependencies otherwise; (b) returns
a path whose length is exactly max(depth) + 1 over all task ids; (c) that
length never exceeds the number of tasks; and (d) a single dependency-free
node yields the one-element path containing it. -/
theorem identifyCriticalPath_length (tasks : List TaskNode) (order : List String)
    (hne : tasks ≠ [])
    (hids : (taskIds tasks).Nodup)
    (hclosed : ∀ t ∈ tasks, ∀ d ∈ t.dependencies, d ∈ taskIds tasks)
    (hond : order.Nodup)
    (homem : ∀ t ∈ tasks, t.id ∈ order)
    (hovalid : ∀ t ∈ tasks, ∀ d ∈ t.dependencies,
      idxOf' d order < idxOf' t.id order) :
    (∀ t ∈ tasks,
      (t.dependencies = [] → (cpDP tasks order).1 t.id = 0) ∧
      (t.dependencies ≠ [] → (cpDP tasks order).1 t.id =
        (t.dependencies.map (cpDP tasks order).1).foldr max 0 + 1)) ∧
    (identifyCriticalPath tasks order).length =
      ((taskIds tasks).map (cpDP tasks order).1).foldr max 0 + 1 ∧
    (identifyCriticalPath tasks order).length ≤ tasks.length ∧
    (∀ t : TaskNode, t.dependencies = [] →
      identifyCriticalPath [t] [t.id] = [t.id]) := by
  have hA : ∀ t ∈ tasks,
      (t.dependencies = [] → (cpDP tasks order).1 t.id = 0) ∧
      (t.dependencies ≠ [] → (cpDP tasks order).1 t.id =
        (t.dependencies.map (cpDP tasks order).1).foldr max 0 + 1) := by
    intro t ht
    have hmap : jsMapGet tasks t.id = some t := jsMapGet_of_nodup hids ht
    have hchar := (cpDP_char tasks order hond hmap (homem t ht) (hovalid t ht)).1
    constructor
    · intro hdnil
      rw [hdnil] at hchar
      exact hchar
    · intro hdne
      rw [hchar, foldl_max_from (cpDP tasks order).1 t.dependencies 0,
        foldr_max_succ (cpDP tasks order).1 t.dependencies hdne]
      omega
  obtain ⟨t0, ht0⟩ : ∃ t0, t0 ∈ tasks := by
    cases tasks with
    | nil => exact absurd rfl hne
    | cons a l => exact ⟨a, List.mem_cons_self _ _⟩
  have horder_ne : order ≠ [] := by
    intro h
    have hh := homem t0 ht0
    rw [h] at hh
    cases hh
  have hdflt_mem : order.headD "" ∈ order := by
    cases order with
    | nil => exact absurd rfl horder_ne
    | cons a l => exact List.mem_cons_self _ _
  obtain ⟨hdisj, _, hub⟩ := cpMax_go (cpDP tasks order).1 (dedupFirst order)
    (0, order.headD "")
  have hend_mem :
      (cpMax (cpDP tasks order).1 (dedupFirst order) (order.headD "")).2 ∈ order := by
    rcases hdisj with h | h
    · have h2 : (cpMax (cpDP tasks order).1 (dedupFirst order) (order.headD "")).2 =
          order.headD "" := congrArg Prod.snd h
      rw [h2]
      exact hdflt_mem
    · exact (dedupFirst_mem order _).1 h.1
  have hdist_end : (cpDP tasks order).1
      (cpMax (cpDP tasks order).1 (dedupFirst order) (order.headD "")).2 =
      (cpMax (cpDP tasks order).1 (dedupFirst order) (order.headD "")).1 := by
    rcases hdisj with h | h
    · have h2 : (cpMax (cpDP tasks order).1 (dedupFirst order) (order.headD "")).2 =
          order.headD "" := congrArg Prod.snd h
      have h1 : (cpMax (cpDP tasks order).1 (dedupFirst order) (order.headD "")).1 =
          0 := congrArg Prod.fst h
      rw [h1, h2]
      have hk : order.headD "" ∈ dedupFirst order :=
        (dedupFirst_mem order _).2 hdflt_mem
      have hu := hub _ hk
      have h1a : ((dedupFirst order).foldl
          (fun acc id => if (cpDP tasks order).1 id > acc.1
            then ((cpDP tasks order).1 id, id) else acc)
          (0, order.headD "")).1 = 0 := congrArg Prod.fst h
      omega
    · exact h.2
  have hvub : ∀ k ∈ order, (cpDP tasks order).1 k ≤
      (cpMax (cpDP tasks order).1 (dedupFirst order) (order.headD "")).1 := by
    intro k hk
    exact hub k ((dedupFirst_mem order k).2 hk)
  have hG_le : ((taskIds tasks).map (cpDP tasks order).1).foldr max 0 ≤
      (cpMax (cpDP tasks order).1 (dedupFirst order) (order.headD "")).1 := by
    refine foldr_max_le _ _ _ ?_
    intro x hx
    obtain ⟨t, ht, hti⟩ :=
      List.mem_map.1 (show x ∈ tasks.map (fun u : TaskNode => u.id) from hx)
    have hti2 : t.id = x := hti
    exact hvub x (hti2 ▸ homem t ht)
  have hle_G : (cpMax (cpDP tasks order).1 (dedupFirst order) (order.headD "")).1 ≤
      ((taskIds tasks).map (cpDP tasks order).1).foldr max 0 := by
    rw [← hdist_end]
    cases hm : jsMapGet tasks
        (cpMax (cpDP tasks order).1 (dedupFirst order) (order.headD "")).2 with
    | none =>
      rw [(cpDP_zero tasks order _ (.inl hm)).1]
      exact Nat.zero_le _
    | some t =>
      obtain ⟨htm, hti⟩ := jsMapGet_mem hm
      refine le_foldr_max _ _ _ ?_
      show (cpMax (cpDP tasks order).1 (dedupFirst order) (order.headD "")).2 ∈
        taskIds tasks
      rw [← hti]
      exact List.mem_map_of_mem (fun u : TaskNode => u.id) htm
  have hfuel : (cpDP tasks order).1
      (cpMax (cpDP tasks order).1 (dedupFirst order) (order.headD "")).2 <
      order.length := by
    have h1 := cpDP_le_idx tasks order hond homem hovalid
      (cpMax (cpDP tasks order).1 (dedupFirst order) (order.headD "")).2
    have h2 := idxOf'_lt_length hend_mem
    omega
  have hlen := cpBuild_len (cpDP tasks order).2 (cpDP tasks order).1
    (cpDP_predOK tasks order hond homem hovalid) order.length
    (cpMax (cpDP tasks order).1 (dedupFirst order) (order.headD "")).2 [] hfuel
  have hpath : (identifyCriticalPath tasks order).length =
      (cpDP tasks order).1
        (cpMax (cpDP tasks order).1 (dedupFirst order) (order.headD "")).2 + 1 := by
    show (cpBuild (cpDP tasks order).2 order.length
      (cpMax (cpDP tasks order).1 (dedupFirst order) (order.headD "")).2 []).length = _
    rw [hlen, List.length_nil]
  have hB : (identifyCriticalPath tasks order).length =
      ((taskIds tasks).map (cpDP tasks order).1).foldr max 0 + 1 := by
    rw [hpath, hdist_end]
    omega
  have hC : (identifyCriticalPath tasks order).length ≤ tasks.length := by
    have hcard := cpDP_card_bound tasks order hond hclosed homem hovalid
      (cpMax (cpDP tasks order).1 (dedupFirst order) (order.headD "")).2
    have hlen1 : 1 ≤ tasks.length := by
      cases tasks with
      | nil => exact absurd rfl hne
      | cons a l => exact Nat.le_add_left 1 l.length
    by_cases hend_task :
        (cpMax (cpDP tasks order).1 (dedupFirst order) (order.headD "")).2 ∈
          taskIds tasks
    · have hsub : (taskIds tasks).toFinset.filter
          (fun y => idxOf' y order < idxOf'
            (cpMax (cpDP tasks order).1 (dedupFirst order) (order.headD "")).2 order) ⊆
          (taskIds tasks).toFinset.erase
            (cpMax (cpDP tasks order).1 (dedupFirst order) (order.headD "")).2 := by
        intro y hy
        rw [Finset.mem_filter] at hy
        rw [Finset.mem_erase]
        refine ⟨?_, hy.1⟩
        intro hyx
        rw [hyx] at hy
        exact Nat.lt_irrefl _ hy.2
      have h1 := Finset.card_le_card hsub
      rw [Finset.card_erase_of_mem (List.mem_toFinset.2 hend_task)] at h1
      have h2 : (taskIds tasks).toFinset.card = tasks.length := by
        rw [List.toFinset_card_of_nodup hids]
        simp [taskIds]
      rw [hpath]
      omega
    · have h0 := (cpDP_zero tasks order _
        (.inl (jsMapGet_none_of_not_mem hend_task))).1
      rw [hpath]
      omega
  have hD : ∀ t : TaskNode, t.dependencies = [] →
      identifyCriticalPath [t] [t.id] = [t.id] := by
    intro t htd
    have h1 : jsMapGet [t] t.id = some t := by
      show (if t.id = t.id then some t else none) = some t
      rw [if_pos rfl]
    have h2 : cpDP [t] [t.id] =
        ((fun _ => (0 : Nat)), (fun _ => (none : Option String))) := by
      have he : cpDP [t] [t.id] =
          match jsMapGet [t] t.id with
          | none => ((fun _ => (0 : Nat)), (fun _ => (none : Option String)))
          | some task => cpRelax t.id task.dependencies
              ((fun _ => (0 : Nat)), (fun _ => (none : Option String))) := rfl
      rw [he, h1]
      show cpRelax t.id t.dependencies _ = _
      rw [htd]
      rfl
    have h3 : dedupFirst [t.id] = [t.id] := by
      show (if t.id ∈ ([] : List String) then dedupFirstGo [] []
        else t.id :: dedupFirstGo [] (t.id :: [])) = [t.id]
      rw [if_neg (List.not_mem_nil t.id)]
      rfl
    show cpBuild (cpDP [t] [t.id]).2 [t.id].length
      (cpMax (cpDP [t] [t.id]).1 (dedupFirst [t.id]) ([t.id].headD "")).2 [] = [t.id]
    rw [h2, h3]
    have h4 : cpMax (fun _ => (0 : Nat)) [t.id] ([t.id].headD "") = (0, t.id) := by
      show (if (0 : Nat) > 0 then ((0 : Nat), t.id) else ((0 : Nat), t.id)) = (0, t.id)
      rw [if_neg (by omega)]
    rw [h4]
    rfl
  exact ⟨hA, hB, hC, hD⟩

/-- witness for C8: the three-task graph A ← B, A ← C in order A,B,C — the
hypotheses hold by computation, the returned path length is max(depth) + 1 = 2,
and 2 ≤ 3 tasks. -/
theorem identifyCriticalPath_length_witness :
    ([taskA3, taskB3, taskC3] ≠ [] ∧ (taskIds [taskA3, taskB3, taskC3]).Nodup ∧
      (["A", "B", "C"] : List String).Nodup) ∧
    (identifyCriticalPath [taskA3, taskB3, taskC3] ["A", "B", "C"]).length =
      ((taskIds [taskA3, taskB3, taskC3]).map
        (cpDP [taskA3, taskB3, taskC3] ["A", "B", "C"]).1).foldr max 0 + 1 ∧
    (identifyCriticalPath [taskA3, taskB3, taskC3] ["A", "B", "C"]).length = 2 ∧
    (identifyCriticalPath [taskA3, taskB3, taskC3] ["A", "B", "C"]).length ≤ 3 := by
  have h := identifyCriticalPath_length [taskA3, taskB3, taskC3] ["A", "B", "C"]
    (by decide) (by decide) (by decide) (by decide) (by decide) (by decide)
  refine ⟨by decide, h.2.1, ?_, ?_⟩
  · rw [h.2.1]
    decide
  · exact h.2.2.1
